import Mathlib

attribute [local semireducible] Rat.add Rat.mul Rat.inv Rat.sub

/-!
Verification development for the maniforge manifest generator.

The Python sources (maniforge_lib) are shallowly embedded below:
pure functions become Lean functions; YAML/Python values become the
mutual inductive `Val`/`ValList`/`ValMap` type (a `ValMap` plays the
role of a Python `dict`, which preserves insertion order and never
holds duplicate keys); arithmetic on the exact decimal quantities the
program manipulates is modelled by `ℚ`; fallible operations (Python
exceptions) return `Option`.  All definitions are structurally
recursive and computable, so concrete runs can be settled by `decide`.
-/

namespace Maniforge

mutual

/-- Values of the dynamic (YAML/Python) data model: a manifest values
tree is built from strings, integers, booleans, `None`, lists and
string-keyed mappings. -/
inductive Val where
  | str : String → Val
  | int : Int → Val
  | bool : Bool → Val
  | null : Val
  | list : ValList → Val
  | map : ValMap → Val
deriving DecidableEq

/-- A Python list of values. -/
inductive ValList where
  | nil : ValList
  | cons : Val → ValList → ValList
deriving DecidableEq

/-- A Python dict: key/value entries in insertion order. -/
inductive ValMap where
  | nil : ValMap
  | cons : String → Val → ValMap → ValMap
deriving DecidableEq

end

/-- Entries of a dict as a Lean list (iteration order). -/
def ValMap.toList : ValMap → List (String × Val)
  | .nil => []
  | .cons k v rest => (k, v) :: rest.toList

/-- Build a dict from a list of entries. -/
def ValMap.ofList : List (String × Val) → ValMap
  | [] => .nil
  | (k, v) :: rest => .cons k v (ValMap.ofList rest)

/-- Elements of a Python list as a Lean list. -/
def ValList.toList : ValList → List Val
  | .nil => []
  | .cons v rest => v :: rest.toList

/-- Build a Python list from a Lean list. -/
def ValList.ofList : List Val → ValList
  | [] => .nil
  | v :: rest => .cons v (ValList.ofList rest)

/-- Map value from a list of entries. -/
def Val.mkMap (l : List (String × Val)) : Val := .map (ValMap.ofList l)

/-- List value from a Lean list. -/
def Val.mkList (l : List Val) : Val := .list (ValList.ofList l)

/-- Keys of a dict in insertion order. -/
def ValMap.keys : ValMap → List String
  | .nil => []
  | .cons k _ rest => k :: rest.keys

/-- First-match lookup: the model of `k in d` / `d[k]` on a Python
dict (Python dicts never hold duplicate keys). -/
def ValMap.find? (k : String) : ValMap → Option Val
  | .nil => none
  | .cons k' v rest => if k' = k then some v else find? k rest

/-- Replace the value stored at `k` in place, or append `(k, v)`:
the model of `d[k] = v` on a Python dict (insertion order preserved). -/
def ValMap.set : ValMap → String → Val → ValMap
  | .nil, k, v => .cons k v .nil
  | .cons k' v' rest, k, v =>
      if k' = k then .cons k' v rest else .cons k' v' (rest.set k v)

/-- Concatenation of two dicts (used to state lemmas about merging
dicts with disjoint keys). -/
def ValMap.append : ValMap → ValMap → ValMap
  | .nil, s => s
  | .cons k v rest, s => .cons k v (rest.append s)

/-- Number of entries, the model of `len(d)`. -/
def ValMap.length : ValMap → ℕ
  | .nil => 0
  | .cons _ _ rest => rest.length + 1

/-- Model of `d.get(k, dflt)` on a Python dict. -/
def dictGet (d : ValMap) (k : String) (dflt : Val) : Val :=
  match d.find? k with
  | some v => v
  | none => dflt

/-- Python truthiness of a value (`bool(v)`). -/
def pyTruthy : Val → Bool
  | .str s => !(s == "")
  | .int n => !(n == 0)
  | .bool b => b
  | .null => false
  | .list xs => !(xs == .nil)
  | .map xs => !(xs == .nil)

mutual

/-- Structural size of a value; a measure for strong induction. -/
def Val.size : Val → ℕ
  | .str _ => 1
  | .int _ => 1
  | .bool _ => 1
  | .null => 1
  | .list xs => xs.size + 1
  | .map xs => xs.size + 1

/-- Structural size of a list of values. -/
def ValList.size : ValList → ℕ
  | .nil => 0
  | .cons v rest => v.size + rest.size + 1

/-- Structural size of a dict. -/
def ValMap.size : ValMap → ℕ
  | .nil => 0
  | .cons _ v rest => v.size + rest.size + 1

end

mutual

/-- Model of Python `==` between two values: deep comparison, dict
comparison by key lookup (hence insensitive to key order), list
comparison pointwise in order.  Cross-type numeric equalities of
Python (`True == 1`) are not modelled; the program never compares a
bool to an int. -/
def pyEq : Val → Val → Bool
  | .str x, .str y => x == y
  | .int x, .int y => x == y
  | .bool x, .bool y => x == y
  | .null, .null => true
  | .list xs, .list ys => pyEqList xs ys
  | .map xs, .map ys => xs.length == ys.length && pyEqMapSub xs ys
  | _, _ => false

/-- Pointwise equality of two value lists. -/
def pyEqList : ValList → ValList → Bool
  | .nil, .nil => true
  | .cons x xs, .cons y ys => pyEq x y && pyEqList xs ys
  | _, _ => false

/-- Every entry of the first dict is present with an equal value in
the second dict. -/
def pyEqMapSub : ValMap → ValMap → Bool
  | .nil, _ => true
  | .cons k v rest, ys =>
      (match ys.find? k with | some w => pyEq v w | none => false) && pyEqMapSub rest ys

end

mutual

/-- Well-formedness of a value as the image of a real Python value:
every dict in it has pairwise distinct keys. -/
def Val.wf : Val → Bool
  | .str _ => true
  | .int _ => true
  | .bool _ => true
  | .null => true
  | .list xs => xs.wf
  | .map xs => xs.wf

/-- Well-formedness of a list of values. -/
def ValList.wf : ValList → Bool
  | .nil => true
  | .cons v rest => v.wf && rest.wf

/-- Well-formedness of a dict: distinct keys, well-formed values. -/
def ValMap.wf : ValMap → Bool
  | .nil => true
  | .cons k v rest => !(rest.keys.contains k) && v.wf && rest.wf

end

/-- Structural induction principle for dicts (the mutual recursor is
inconvenient for the `induction` tactic). -/
@[induction_eliminator]
theorem ValMap.inductionOnMap {motive : ValMap → Prop} (nil : motive .nil)
    (cons : ∀ k v rest, motive rest → motive (.cons k v rest)) : ∀ m, motive m
  | .nil => nil
  | .cons k v rest => cons k v rest (ValMap.inductionOnMap nil cons rest)

/-- Structural induction principle for value lists. -/
@[induction_eliminator]
theorem ValList.inductionOnList {motive : ValList → Prop} (nil : motive .nil)
    (cons : ∀ v rest, motive rest → motive (.cons v rest)) : ∀ l, motive l
  | .nil => nil
  | .cons v rest => cons v rest (ValList.inductionOnList nil cons rest)

/-! ### Basic lemmas about dicts -/

@[simp] theorem ValMap.find?_nil (k : String) : ValMap.find? k .nil = none := rfl

@[simp] theorem ValMap.find?_cons (k k' : String) (v : Val) (rest : ValMap) :
    ValMap.find? k (.cons k' v rest) = if k' = k then some v else rest.find? k := rfl

@[simp] theorem ValMap.set_nil (k : String) (v : Val) :
    ValMap.set .nil k v = .cons k v .nil := rfl

@[simp] theorem ValMap.set_cons (k k' : String) (v v' : Val) (rest : ValMap) :
    ValMap.set (.cons k' v' rest) k v =
      if k' = k then .cons k' v rest else .cons k' v' (rest.set k v) := rfl

theorem ValMap.find?_set_self (m : ValMap) (k : String) (v : Val) :
    (m.set k v).find? k = some v := by
  induction m with
  | nil => simp
  | cons k' v' rest ih =>
      by_cases h : k' = k <;> simp [h, ih]

theorem ValMap.find?_set_ne (m : ValMap) (k k' : String) (v : Val) (h : k' ≠ k) :
    (m.set k' v).find? k = m.find? k := by
  induction m with
  | nil => simp [h]
  | cons k'' v'' rest ih =>
      by_cases h2 : k'' = k'
      · subst h2
        simp [h]
      · simp [h2, ih]

theorem ValMap.set_self (m : ValMap) (k : String) (v : Val) (h : m.find? k = some v) :
    m.set k v = m := by
  induction m with
  | nil => simp at h
  | cons k' v' rest ih =>
      by_cases h2 : k' = k
      · subst h2
        simp at h
        simp [h]
      · simp [h2] at h ⊢
        exact ih h

@[simp] theorem ValMap.keys_nil : ValMap.keys .nil = [] := rfl

@[simp] theorem ValMap.keys_cons (k : String) (v : Val) (rest : ValMap) :
    ValMap.keys (.cons k v rest) = k :: rest.keys := rfl

theorem ValMap.keys_set_found (m : ValMap) (k : String) (v w : Val)
    (h : m.find? k = some w) : (m.set k v).keys = m.keys := by
  induction m with
  | nil => simp at h
  | cons k'' v'' rest ih =>
      by_cases h2 : k'' = k
      · subst h2
        simp
      · simp only [find?_cons, h2, if_false] at h
        simp [h2, ih h]

theorem ValMap.keys_set_new (m : ValMap) (k : String) (v : Val)
    (h : m.find? k = none) : (m.set k v).keys = m.keys ++ [k] := by
  induction m with
  | nil => simp
  | cons k'' v'' rest ih =>
      by_cases h2 : k'' = k
      · subst h2
        simp at h
      · simp only [find?_cons, h2, if_false] at h
        simp [h2, ih h]

/-! ## Decimal strings

Python `float(s)` / `int(s)` / `str(n)` / f-string formatting are
modelled on exact decimal literals (optional sign, digits, at most one
decimal point), which covers every quantity string the program
manipulates; the rationals stand for the exact decimal values. -/

/-- Character for a single decimal digit value. -/
def digitChar (d : ℕ) : Char := Char.ofNat (d + 48)

/-- Numeric value of big-endian digit characters, accumulated the way
number parsing does. -/
def digitsToNat (cs : List Char) : ℕ :=
  cs.foldl (fun acc c => acc * 10 + (c.toNat - 48)) 0

/-- Check that every character is a decimal digit. -/
def allDigits (cs : List Char) : Bool := cs.all Char.isDigit

/-- Predicate used to split a literal at the decimal point. -/
def notDot (c : Char) : Bool := !(c == '.')

/-- Parse an unsigned decimal literal (digits with at most one point,
at least one digit) to a rational. -/
def parseUnsigned (cs : List Char) : Option ℚ :=
  let intPart := cs.takeWhile notDot
  match cs.dropWhile notDot with
  | [] => if intPart ≠ [] ∧ allDigits intPart then some (digitsToNat intPart) else none
  | _ :: fracPart =>
      if (intPart ≠ [] ∨ fracPart ≠ []) ∧ allDigits intPart ∧ allDigits fracPart then
        some ((digitsToNat intPart : ℚ) + (digitsToNat fracPart : ℚ) / (10 : ℚ) ^ fracPart.length)
      else none

/-- Model of Python `float(s)` on plain decimal literals; `none` is a
`ValueError`. -/
def parseDecimal (s : String) : Option ℚ :=
  match s.data with
  | [] => none
  | c :: rest =>
      if c = '-' then (parseUnsigned rest).map (fun q => -q)
      else if c = '+' then parseUnsigned rest
      else parseUnsigned (c :: rest)

/-- Little-endian digits of a natural number (fuelled; any fuel above
the number itself is enough). -/
def natDigitsAux : ℕ → ℕ → List ℕ
  | 0, _ => []
  | fuel + 1, n => if n < 10 then [n] else n % 10 :: natDigitsAux fuel (n / 10)

/-- Little-endian decimal digits of `n`. -/
def natDigitsRev (n : ℕ) : List ℕ := natDigitsAux (n + 1) n

/-- Decimal string of a natural number, the model of Python `str(n)`
for `n ≥ 0`. -/
def natToDecString (n : ℕ) : String := ⟨(natDigitsRev n).reverse.map digitChar⟩

/-- Decimal string of an integer, the model of Python `str` and
f-string formatting of an `int`. -/
def intToDecString (i : Int) : String :=
  if i < 0 then "-" ++ natToDecString i.natAbs else natToDecString i.natAbs

/-- Python `int(q)` truncates toward zero. -/
def truncQ (q : ℚ) : Int := if 0 ≤ q then ⌊q⌋ else -⌊-q⌋

/-- Round to the nearest integer, ties to even: the rounding used by
Python's fixed-point formatting of an exact decimal value. -/
def roundHalfEvenInt (q : ℚ) : Int :=
  let f := ⌊q⌋
  let r := q - (f : ℚ)
  if r < 1 / 2 then f
  else if 1 / 2 < r then f + 1
  else if f % 2 = 0 then f else f + 1

/-- Render a natural below 100 with two digits. -/
def twoDigitString (k : ℕ) : String :=
  if k < 10 then "0" ++ natToDecString k else natToDecString k

/-- Model of an `f"{q:.2f}"` format of an exact decimal value. -/
def formatFixed2 (q : ℚ) : String :=
  let n := roundHalfEvenInt (q * 100)
  let sign := if n < 0 then "-" else ""
  let m := n.natAbs
  sign ++ natToDecString (m / 100) ++ "." ++ twoDigitString (m % 100)

/-! ### Decimal round-trip lemmas -/

theorem digitChar_toNat {d : ℕ} (h : d < 10) : (digitChar d).toNat = d + 48 := by
  interval_cases d <;> decide

theorem digitChar_isDigit {d : ℕ} (h : d < 10) : (digitChar d).isDigit = true := by
  interval_cases d <;> decide

theorem digitChar_ne_minus {d : ℕ} (h : d < 10) : digitChar d ≠ '-' := by
  interval_cases d <;> decide

theorem digitChar_ne_plus {d : ℕ} (h : d < 10) : digitChar d ≠ '+' := by
  interval_cases d <;> decide

/-- Value of a little-endian digit list. -/
def valRev : List ℕ → ℕ
  | [] => 0
  | d :: ds => d + 10 * valRev ds

theorem natDigitsAux_spec : ∀ fuel n, n < fuel →
    valRev (natDigitsAux fuel n) = n ∧
    (natDigitsAux fuel n ≠ []) ∧ ∀ d ∈ natDigitsAux fuel n, d < 10 := by
  intro fuel
  induction fuel with
  | zero => omega
  | succ fuel ih =>
      intro n hn
      by_cases h10 : n < 10
      · refine ⟨?_, ?_, ?_⟩
        · simp [natDigitsAux, h10, valRev]
        · simp [natDigitsAux, h10]
        · intro d hd
          simp [natDigitsAux, h10] at hd
          omega
      · have hdiv : n / 10 < fuel := by omega
        obtain ⟨hv, hne, hd⟩ := ih (n / 10) hdiv
        refine ⟨?_, ?_, ?_⟩
        · simp only [natDigitsAux, h10, if_false, valRev, hv]
          omega
        · simp [natDigitsAux, h10]
        · intro d hd'
          simp only [natDigitsAux, h10, if_false, List.mem_cons] at hd'
          rcases hd' with h | h
          · omega
          · exact hd d h

theorem natDigitsRev_spec (n : ℕ) :
    valRev (natDigitsRev n) = n ∧ (natDigitsRev n ≠ []) ∧ ∀ d ∈ natDigitsRev n, d < 10 :=
  natDigitsAux_spec (n + 1) n (Nat.lt_succ_self n)

theorem digitsToNat_append_digit (cs : List Char) (c : Char) :
    digitsToNat (cs ++ [c]) = digitsToNat cs * 10 + (c.toNat - 48) := by
  simp [digitsToNat, List.foldl_append]

theorem digitsToNat_rev_digits (ds : List ℕ) (h : ∀ d ∈ ds, d < 10) :
    digitsToNat (ds.reverse.map digitChar) = valRev ds := by
  induction ds with
  | nil => simp [digitsToNat, valRev]
  | cons d ds ih =>
      have hd : d < 10 := h d (List.mem_cons_self d ds)
      have hds : ∀ x ∈ ds, x < 10 := fun x hx => h x (List.mem_cons_of_mem d hx)
      simp only [List.reverse_cons, List.map_append, List.map_cons, List.map_nil]
      rw [digitsToNat_append_digit, ih hds, digitChar_toNat hd]
      simp [valRev]
      ring

theorem allDigits_of_digits {ds : List ℕ} (h : ∀ d ∈ ds, d < 10) :
    allDigits (ds.reverse.map digitChar) = true := by
  simp only [allDigits, List.all_eq_true]
  intro c hc
  simp only [List.mem_map, List.mem_reverse] at hc
  obtain ⟨d, hd, rfl⟩ := hc
  exact digitChar_isDigit (h d hd)

theorem takeWhile_all {α : Type} {p : α → Bool} :
    ∀ {l : List α}, (∀ c ∈ l, p c = true) → l.takeWhile p = l
  | [], _ => rfl
  | c :: cs, h => by
      have hc : p c = true := h c (List.mem_cons_self c cs)
      simp only [List.takeWhile_cons, hc, if_true]
      rw [takeWhile_all (fun x hx => h x (List.mem_cons_of_mem c hx))]

theorem dropWhile_all {α : Type} {p : α → Bool} :
    ∀ {l : List α}, (∀ c ∈ l, p c = true) → l.dropWhile p = []
  | [], _ => rfl
  | c :: cs, h => by
      have hc : p c = true := h c (List.mem_cons_self c cs)
      simp only [List.dropWhile_cons, hc, if_true]
      exact dropWhile_all (fun x hx => h x (List.mem_cons_of_mem c hx))

theorem notDot_of_isDigit {c : Char} (h : c.isDigit = true) : notDot c = true := by
  simp only [notDot, Bool.not_eq_true', beq_eq_false_iff_ne, ne_eq]
  intro hfalse
  subst hfalse
  simp [Char.isDigit] at h

theorem parseUnsigned_digits {cs : List Char} (hne : cs ≠ [])
    (had : allDigits cs = true) :
    parseUnsigned cs = some (digitsToNat cs : ℚ) := by
  have hall : ∀ c ∈ cs, notDot c = true := by
    intro c hc
    simp only [allDigits, List.all_eq_true] at had
    exact notDot_of_isDigit (had c hc)
  rw [parseUnsigned.eq_def]
  simp only [takeWhile_all hall, dropWhile_all hall]
  simp [hne, had]

theorem parseDecimal_natToDecString (n : ℕ) :
    parseDecimal (natToDecString n) = some (n : ℚ) := by
  obtain ⟨hv, hne, hd⟩ := natDigitsRev_spec n
  set ds := natDigitsRev n with hds
  have hchars : natToDecString n = ⟨ds.reverse.map digitChar⟩ := rfl
  have hne' : ds.reverse.map digitChar ≠ [] := by
    simp [hne]
  have had : allDigits (ds.reverse.map digitChar) = true := allDigits_of_digits hd
  obtain ⟨e, es, hes⟩ : ∃ e es, ds.reverse.map digitChar = e :: es := by
    cases hrm : ds.reverse.map digitChar with
    | nil => exact absurd hrm hne'
    | cons e es => exact ⟨e, es, rfl⟩
  have hmem : e ∈ ds.reverse.map digitChar := by
    rw [hes]
    exact List.mem_cons_self e es
  obtain ⟨d0, hd0mem, hd0⟩ : ∃ d, d ∈ ds.reverse ∧ digitChar d = e := by
    simpa using List.mem_map.mp hmem
  have hd0lt : d0 < 10 := hd d0 (List.mem_reverse.mp hd0mem)
  have hne_minus : e ≠ '-' := hd0 ▸ digitChar_ne_minus hd0lt
  have hne_plus : e ≠ '+' := hd0 ▸ digitChar_ne_plus hd0lt
  have hpu : parseUnsigned (ds.reverse.map digitChar) = some (digitsToNat (ds.reverse.map digitChar) : ℚ) :=
    parseUnsigned_digits hne' had
  rw [digitsToNat_rev_digits ds hd, hv] at hpu
  rw [parseDecimal.eq_def, hchars]
  simp only [hes] at hpu ⊢
  simp [hne_minus, hne_plus, hpu]

/-- Parse a string as a Python `int(...)` argument: optional sign and
decimal digits; `none` is a `ValueError`. -/
def parseIntString (s : String) : Option Int :=
  match s.data with
  | [] => none
  | c :: rest =>
      if c = '-' then
        if rest ≠ [] ∧ allDigits rest then some (-(digitsToNat rest : Int)) else none
      else if c = '+' then
        if rest ≠ [] ∧ allDigits rest then some (digitsToNat rest : Int) else none
      else if allDigits (c :: rest) then some (digitsToNat (c :: rest) : Int) else none

/-- Model of Python `int(v)` on a dynamic value. -/
def pyToInt : Val → Option Int
  | .int n => some n
  | .bool b => some (if b then 1 else 0)
  | .str s => parseIntString s
  | _ => none

/-- Model of Python `str(v)` / f-string interpolation of a value.  The
textual repr of lists and dicts is abstracted by a placeholder: the
program only ever formats scalars. -/
def pyStr : Val → String
  | .str s => s
  | .int n => intToDecString n
  | .bool b => if b then "True" else "False"
  | .null => "None"
  | .list _ => "<listrepr>"
  | .map _ => "<dictrepr>"

/-! ## models.py: the quantity model -/

/-- Embedding of `models.ResourceAmount`: a normalized scalar (CPU in
millicores, memory in bytes) plus the original text. -/
structure ResourceAmount where
  value : ℚ
  original : String
deriving DecidableEq

/-- Embedding of `ResourceAmount.parse_cpu`: a trailing `m` marks
millicores directly, otherwise the number is whole cores scaled by
1000.  `none` models the `ValueError` escaping `float`. -/
def ResourceAmount.parse_cpu (value : String) : Option ResourceAmount :=
  if value.data.getLast? = some 'm' then
    (parseDecimal ⟨value.data.dropLast⟩).map (fun millicores => ⟨millicores, value⟩)
  else
    (parseDecimal value).map (fun q => ⟨q * 1000, value⟩)

/-- The suffix table of `ResourceAmount.parse_memory` in iteration
order. -/
def memoryUnits : List (String × ℚ) :=
  [("Ki", 1024), ("Mi", 1024 ^ 2), ("Gi", 1024 ^ 3), ("Ti", 1024 ^ 4),
   ("K", 1000), ("M", 1000 ^ 2), ("G", 1000 ^ 3), ("T", 1000 ^ 4)]

/-- Model of `str.endswith` on character lists. -/
def endsWithChars (cs suffix : List Char) : Bool := suffix.reverse.isPrefixOf cs.reverse

/-- Helper for `parse_memory`: try each suffix in table order, then
fall back to raw bytes. -/
def parseMemoryAux (s : String) : List (String × ℚ) → Option ResourceAmount
  | [] => (parseDecimal s).map (fun q => ⟨q, s⟩)
  | (suffix, multiplier) :: rest =>
      if endsWithChars s.data suffix.data then
        (parseDecimal ⟨s.data.take (s.data.length - suffix.data.length)⟩).map
          (fun q => ⟨q * multiplier, s⟩)
      else parseMemoryAux s rest

/-- Embedding of `ResourceAmount.parse_memory`: recognized suffixes
scale the numeric prefix, no suffix means raw bytes. -/
def ResourceAmount.parse_memory (value : String) : Option ResourceAmount :=
  parseMemoryAux value memoryUnits

/-- Embedding of `ResourceAmount.format_cpu`: below 1000 millicores an
integer-truncated `"<int>m"`, otherwise a two-decimal core count. -/
def ResourceAmount.format_cpu (r : ResourceAmount) : String :=
  if r.value < 1000 then intToDecString (truncQ r.value) ++ "m"
  else formatFixed2 (r.value / 1000)

/-- Embedding of `ResourceAmount.format_memory`: the largest binary
unit whose value is at least one, else raw integer bytes. -/
def ResourceAmount.format_memory (r : ResourceAmount) : String :=
  if (1024 : ℚ) ^ 3 ≤ r.value then formatFixed2 (r.value / 1024 ^ 3) ++ "Gi"
  else if (1024 : ℚ) ^ 2 ≤ r.value then formatFixed2 (r.value / 1024 ^ 2) ++ "Mi"
  else if (1024 : ℚ) ≤ r.value then formatFixed2 (r.value / 1024) ++ "Ki"
  else intToDecString (truncQ r.value)

/-- Embedding of `models.ResourceRequirements`. -/
structure ResourceRequirements where
  cpu_request : ResourceAmount
  cpu_limit : ResourceAmount
  memory_request : ResourceAmount
  memory_limit : ResourceAmount
deriving DecidableEq

/-- Embedding of `models.NodeCapacity`. -/
structure NodeCapacity where
  cpu : ResourceAmount
  memory : ResourceAmount
  node_type : String
  count : Int
  disk : Option ResourceAmount
deriving DecidableEq

/-- Embedding of `models.AppResources` (`namespace` is a Lean keyword,
hence `namespaceName`). -/
structure AppResources where
  app_name : String
  namespaceName : String
  node_selector : String
  replicas : Int
  resources : ResourceRequirements
deriving DecidableEq

/-! ## utils.py: deep merge -/

/-- Embedding of `utils.deep_merge(target, source)`: the in-place
mutation of `target` is modelled functionally.  For each entry of
`source` in order: if the key is present in the target and both values
are dicts the merge recurses, otherwise the source value replaces the
target value. -/
def deep_merge : ValMap → ValMap → ValMap
  | t, .nil => t
  | t, .cons k v rest =>
      deep_merge (match t.find? k, v with
        | some (.map tm), .map vm => t.set k (.map (deep_merge tm vm))
        | _, _ => t.set k v) rest

@[simp] theorem deep_merge_nil_right (t : ValMap) : deep_merge t .nil = t := rfl

theorem deep_merge_cons (t : ValMap) (k : String) (v : Val) (rest : ValMap) :
    deep_merge t (.cons k v rest) =
      deep_merge (match t.find? k, v with
        | some (.map tm), .map vm => t.set k (.map (deep_merge tm vm))
        | _, _ => t.set k v) rest := by
  conv_lhs => rw [deep_merge.eq_def]

theorem ValMap.find?_eq_none_iff (m : ValMap) (k : String) :
    m.find? k = none ↔ k ∉ m.keys := by
  induction m with
  | nil => simp
  | cons k' v rest ih =>
      by_cases h : k' = k
      · subst h
        simp
      · have h' : ¬k = k' := fun he => h he.symm
        simp [h, h', ih]

theorem ValMap.find?_isSome_of_mem (m : ValMap) (k : String) (h : k ∈ m.keys) :
    ∃ v, m.find? k = some v := by
  cases hf : m.find? k with
  | none => exact absurd h ((m.find?_eq_none_iff k).mp hf)
  | some v => exact ⟨v, rfl⟩

/-- The merged dict resolves each key by the documented rule: keys of
the source win, except that two dict values merge recursively; keys
absent from the source keep the target value. -/
theorem find?_deep_merge (t s : ValMap) (hs : s.keys.Nodup) (k : String) :
    (deep_merge t s).find? k =
      match t.find? k, s.find? k with
      | some (.map tm), some (.map sm) => some (.map (deep_merge tm sm))
      | _, some v => some v
      | o, none => o := by
  induction s generalizing t with
  | nil => cases h : t.find? k <;> simp [h]
  | cons k' v rest ih =>
      simp only [ValMap.keys_cons, List.nodup_cons] at hs
      obtain ⟨hk'', hrest⟩ := hs
      rw [deep_merge_cons]
      by_cases hk : k' = k
      · subst hk
        have hnone : rest.find? k' = none := (rest.find?_eq_none_iff k').mpr hk''
        rw [ih _ hrest]
        cases htf : t.find? k' with
        | none =>
            simp only [htf]
            cases v <;> simp [hnone, ValMap.find?_set_self]
        | some w =>
            cases w <;> cases v <;>
              simp [htf, hnone, ValMap.find?_set_self]
      · have hs' : ValMap.find? k (.cons k' v rest) = rest.find? k := by simp [hk]
        rw [hs', ih _ hrest]
        have hset : ∀ x, (t.set k' x).find? k = t.find? k :=
          fun x => t.find?_set_ne k k' x hk
        cases htf : t.find? k' with
        | none => simp [hset]
        | some w => cases w <;> cases v <;> simp [hset]

/-- Dict concatenation lemmas. -/
@[simp] theorem ValMap.append_nil_left (s : ValMap) : ValMap.append .nil s = s := rfl

@[simp] theorem ValMap.append_cons (k : String) (v : Val) (rest s : ValMap) :
    ValMap.append (.cons k v rest) s = .cons k v (rest.append s) := rfl

theorem ValMap.append_nil_right (t : ValMap) : t.append .nil = t := by
  induction t with
  | nil => rfl
  | cons k v rest ih => simp [ih]

theorem ValMap.append_assoc (a b c : ValMap) :
    (a.append b).append c = a.append (b.append c) := by
  induction a with
  | nil => rfl
  | cons k v rest ih => simp [ih]

theorem ValMap.find?_append (t s : ValMap) (k : String) :
    (t.append s).find? k = match t.find? k with
      | some v => some v
      | none => s.find? k := by
  induction t with
  | nil => simp
  | cons k' v rest ih =>
      by_cases h : k' = k <;> simp [h, ih]

theorem ValMap.set_absent (m : ValMap) (k : String) (v : Val) (h : m.find? k = none) :
    m.set k v = m.append (.cons k v .nil) := by
  induction m with
  | nil => rfl
  | cons k' v' rest ih =>
      by_cases h2 : k' = k
      · subst h2
        simp at h
      · simp only [find?_cons, h2, if_false] at h
        simp [h2, ih h]

/-- Merging a source whose keys are all absent from the target just
concatenates the source onto the target. -/
theorem deep_merge_disjoint (s : ValMap) : ∀ (t : ValMap), s.keys.Nodup →
    (∀ k, k ∈ s.keys → t.find? k = none) → deep_merge t s = t.append s := by
  induction s with
  | nil => intro t _ _; simp [ValMap.append_nil_right]
  | cons k v rest ih =>
      intro t hnodup hdisj
      simp only [ValMap.keys_cons, List.nodup_cons] at hnodup
      obtain ⟨hknotin, hrest⟩ := hnodup
      have htk : t.find? k = none := hdisj k (by simp)
      have hdisj' : ∀ k' ∈ rest.keys, (t.append (.cons k v .nil)).find? k' = none := by
        intro k' hk'
        rw [ValMap.find?_append]
        have hne : k ≠ k' := fun he => hknotin (he ▸ hk')
        rw [hdisj k' (by simp [hk'])]
        simp [hne]
      have hmain : deep_merge (t.set k v) rest = t.append (ValMap.cons k v rest) := by
        rw [ValMap.set_absent t k v htk, ih _ hrest hdisj', ValMap.append_assoc]
        simp
      rw [deep_merge_cons, htk]
      cases v <;> exact hmain

/-- Merging into an empty target copies the source. -/
theorem deep_merge_nil_left (s : ValMap) (hs : s.keys.Nodup) :
    deep_merge .nil s = s := by
  rw [deep_merge_disjoint s .nil hs (fun k _ => rfl)]
  rfl

/-- The per-entry step of `deep_merge`, named for use in lemmas. -/
def merge_step (t : ValMap) (k : String) (v : Val) : ValMap :=
  match t.find? k, v with
  | some (.map tm), .map vm => t.set k (.map (deep_merge tm vm))
  | _, _ => t.set k v

theorem deep_merge_cons_step (t : ValMap) (k : String) (v : Val) (rest : ValMap) :
    deep_merge t (.cons k v rest) = deep_merge (merge_step t k v) rest :=
  deep_merge_cons t k v rest

@[simp] theorem Val.wf_map (m : ValMap) : (Val.map m).wf = m.wf := rfl

@[simp] theorem ValMap.wf_nil : ValMap.wf .nil = true := rfl

theorem ValMap.wf_cons_iff (k : String) (v : Val) (rest : ValMap) :
    (ValMap.cons k v rest).wf = true ↔ k ∉ rest.keys ∧ v.wf = true ∧ rest.wf = true := by
  show (!(rest.keys.contains k) && v.wf && rest.wf) = true ↔ _
  simp [List.contains, and_assoc]

theorem ValMap.wf_keys_nodup (m : ValMap) (h : m.wf = true) : m.keys.Nodup := by
  induction m with
  | nil => simp
  | cons k v rest ih =>
      rw [ValMap.wf_cons_iff] at h
      simp [h.1, ih h.2.2]

theorem ValMap.find?_wf (m : ValMap) (k : String) (v : Val) (hm : m.wf = true)
    (h : m.find? k = some v) : v.wf = true := by
  induction m with
  | nil => simp at h
  | cons k' v' rest ih =>
      rw [ValMap.wf_cons_iff] at hm
      by_cases h2 : k' = k
      · subst h2
        simp at h
        exact h ▸ hm.2.1
      · simp [h2] at h
        exact ih hm.2.2 h

theorem ValMap.set_wf (m : ValMap) (k : String) (v : Val) (hm : m.wf = true)
    (hv : v.wf = true) : (m.set k v).wf = true := by
  induction m with
  | nil =>
      simp only [ValMap.set_nil]
      rw [ValMap.wf_cons_iff]
      simp [hv]
  | cons k' v' rest ih =>
      rw [ValMap.wf_cons_iff] at hm
      obtain ⟨hk', hv', hrest⟩ := hm
      by_cases h2 : k' = k
      · subst h2
        have hset : ValMap.set (.cons k' v' rest) k' v = .cons k' v rest := by simp
        rw [hset, ValMap.wf_cons_iff]
        exact ⟨hk', hv, hrest⟩
      · simp only [ValMap.set_cons, h2, if_false]
        rw [ValMap.wf_cons_iff]
        refine ⟨?_, hv', ih hrest⟩
        cases hf : rest.find? k with
        | none =>
            rw [rest.keys_set_new k v hf]
            simp only [List.mem_append, List.mem_singleton]
            rintro (h | h)
            · exact hk' h
            · exact h2 h
        | some w =>
            rw [rest.keys_set_found k v w hf]
            exact hk'

theorem Val.size_pos (v : Val) : 1 ≤ v.size := by
  cases v <;> simp [Val.size]

theorem deep_merge_wf_aux : ∀ n (t s : ValMap), s.size ≤ n → t.wf = true → s.wf = true →
    (deep_merge t s).wf = true := by
  intro n
  induction n with
  | zero =>
      intro t s hs ht hsw
      cases s with
      | nil => simpa using ht
      | cons k v rest =>
          have := Val.size_pos v
          simp only [ValMap.size] at hs
          omega
  | succ n ih =>
      intro t s hs ht hsw
      cases s with
      | nil => simpa using ht
      | cons k v rest =>
          rw [ValMap.wf_cons_iff] at hsw
          obtain ⟨hk, hv, hrest⟩ := hsw
          simp only [ValMap.size] at hs
          rw [deep_merge_cons_step]
          have hstep : (merge_step t k v).wf = true := by
            rw [merge_step.eq_def]
            cases htf : t.find? k with
            | none => cases v <;> exact t.set_wf k _ ht hv
            | some w =>
                cases w with
                | map tm =>
                    cases v with
                    | map vm =>
                        refine t.set_wf k _ ht ?_
                        rw [Val.wf_map]
                        refine ih tm vm ?_ (t.find?_wf k _ ht htf) hv
                        simp only [Val.size] at hs
                        omega
                    | str x => exact t.set_wf k _ ht hv
                    | int x => exact t.set_wf k _ ht hv
                    | bool x => exact t.set_wf k _ ht hv
                    | null => exact t.set_wf k _ ht hv
                    | list x => exact t.set_wf k _ ht hv
                | str x => cases v <;> exact t.set_wf k _ ht hv
                | int x => cases v <;> exact t.set_wf k _ ht hv
                | bool x => cases v <;> exact t.set_wf k _ ht hv
                | null => cases v <;> exact t.set_wf k _ ht hv
                | list x => cases v <;> exact t.set_wf k _ ht hv
          exact ih _ rest (by omega) hstep hrest

/-- Deep merge of two well-formed dicts is well-formed. -/
theorem deep_merge_wf (t s : ValMap) (ht : t.wf = true) (hs : s.wf = true) :
    (deep_merge t s).wf = true :=
  deep_merge_wf_aux s.size t s le_rfl ht hs

theorem merge_step_wf (t : ValMap) (k : String) (v : Val) (ht : t.wf = true)
    (hv : v.wf = true) : (merge_step t k v).wf = true := by
  rw [merge_step.eq_def]
  cases htf : t.find? k with
  | none => cases v <;> exact t.set_wf k _ ht hv
  | some w =>
      cases w with
      | map tm =>
          cases v with
          | map vm =>
              refine t.set_wf k _ ht ?_
              rw [Val.wf_map]
              exact deep_merge_wf tm vm (t.find?_wf k _ ht htf) hv
          | str x => exact t.set_wf k _ ht hv
          | int x => exact t.set_wf k _ ht hv
          | bool x => exact t.set_wf k _ ht hv
          | null => exact t.set_wf k _ ht hv
          | list x => exact t.set_wf k _ ht hv
      | str x => cases v <;> exact t.set_wf k _ ht hv
      | int x => cases v <;> exact t.set_wf k _ ht hv
      | bool x => cases v <;> exact t.set_wf k _ ht hv
      | null => cases v <;> exact t.set_wf k _ ht hv
      | list x => cases v <;> exact t.set_wf k _ ht hv

/-- The value that `merge_step` stores at `k`. -/
def merged_val (t : ValMap) (k : String) (v : Val) : Val :=
  match t.find? k, v with
  | some (.map tm), .map vm => .map (deep_merge tm vm)
  | _, _ => v

theorem merge_step_eq_set (t : ValMap) (k : String) (v : Val) :
    merge_step t k v = t.set k (merged_val t k v) := by
  rw [merge_step.eq_def, merged_val.eq_def]
  cases htf : t.find? k with
  | none => cases v <;> rfl
  | some w => cases w <;> cases v <;> rfl

theorem merge_step_find_self (t : ValMap) (k : String) (v : Val) :
    (merge_step t k v).find? k = some (merged_val t k v) := by
  rw [merge_step_eq_set]
  exact t.find?_set_self k _

theorem merged_val_nonmap (t : ValMap) (k : String) (v : Val)
    (hv : ∀ vm, v ≠ Val.map vm) : merged_val t k v = v := by
  rw [merged_val.eq_def]
  cases htf : t.find? k with
  | none => cases v <;> first | rfl | exact absurd rfl (hv _)
  | some w => cases w <;> cases v <;> first | rfl | exact absurd rfl (hv _)

theorem merged_val_map (t : ValMap) (k : String) (vm : ValMap) :
    (∃ tm, t.find? k = some (.map tm) ∧ merged_val t k (.map vm) = .map (deep_merge tm vm)) ∨
      merged_val t k (.map vm) = .map vm := by
  rw [merged_val.eq_def]
  cases htf : t.find? k with
  | none => right; rfl
  | some w =>
      cases w with
      | map tm => left; exact ⟨tm, rfl, rfl⟩
      | str x => right; rfl
      | int x => right; rfl
      | bool x => right; rfl
      | null => right; rfl
      | list x => right; rfl

theorem merge_step_map_map (t : ValMap) (k : String) (tm vm : ValMap)
    (htf : t.find? k = some (.map tm)) :
    merge_step t k (.map vm) = t.set k (.map (deep_merge tm vm)) := by
  rw [merge_step.eq_def, htf]

theorem merge_step_nonmap (t : ValMap) (k : String) (v : Val)
    (hv : ∀ vm, v ≠ Val.map vm) : merge_step t k v = t.set k v := by
  rw [merge_step_eq_set, merged_val_nonmap t k v hv]

theorem deep_merge_idem_aux : ∀ n (t s : ValMap), s.size ≤ n → t.wf = true → s.wf = true →
    deep_merge (deep_merge t s) s = deep_merge t s := by
  intro n
  induction n with
  | zero =>
      intro t s hs ht hsw
      cases s with
      | nil => simp
      | cons k v rest =>
          have := Val.size_pos v
          simp only [ValMap.size] at hs
          omega
  | succ n ih =>
      intro t s hs ht hsw
      cases s with
      | nil => simp
      | cons k v rest =>
          rw [ValMap.wf_cons_iff] at hsw
          obtain ⟨hk, hv, hrest⟩ := hsw
          simp only [ValMap.size] at hs
          have hrestn : rest.keys.Nodup := ValMap.wf_keys_nodup rest hrest
          have hrfind : rest.find? k = none := (rest.find?_eq_none_iff k).mpr hk
          have hMwf : (merge_step t k v).wf = true := merge_step_wf t k v ht hv
          have hfindD : (deep_merge (merge_step t k v) rest).find? k =
              some (merged_val t k v) := by
            rw [find?_deep_merge _ rest hrestn k, hrfind, merge_step_find_self]
            cases merged_val t k v <;> rfl
          have hstepD : merge_step (deep_merge (merge_step t k v) rest) k v =
              deep_merge (merge_step t k v) rest := by
            cases v with
            | map vm =>
                have hvmwf : vm.wf = true := by simpa using hv
                have hvmsize : vm.size ≤ n := by
                  simp only [Val.size] at hs
                  omega
                have hself : deep_merge vm vm = vm := by
                  have h1 := ih .nil vm hvmsize rfl hvmwf
                  rwa [deep_merge_nil_left vm (ValMap.wf_keys_nodup vm hvmwf)] at h1
                rcases merged_val_map t k vm with ⟨tm, htf, hmv⟩ | hmv
                · rw [hmv] at hfindD
                  have htmwf : tm.wf = true := by
                    have := t.find?_wf k _ ht htf
                    simpa using this
                  have hinner : deep_merge (deep_merge tm vm) vm = deep_merge tm vm :=
                    ih tm vm hvmsize htmwf hvmwf
                  rw [merge_step_map_map _ k (deep_merge tm vm) vm hfindD, hinner]
                  exact (deep_merge (merge_step t k (.map vm)) rest).set_self k _ hfindD
                · rw [hmv] at hfindD
                  rw [merge_step_map_map _ k vm vm hfindD, hself]
                  exact (deep_merge (merge_step t k (.map vm)) rest).set_self k _ hfindD
            | str x =>
                rw [merged_val_nonmap t k _ (fun _ => by simp)] at hfindD
                rw [merge_step_nonmap _ k _ (fun _ => by simp)]
                exact (deep_merge (merge_step t k (.str x)) rest).set_self k _ hfindD
            | int x =>
                rw [merged_val_nonmap t k _ (fun _ => by simp)] at hfindD
                rw [merge_step_nonmap _ k _ (fun _ => by simp)]
                exact (deep_merge (merge_step t k (.int x)) rest).set_self k _ hfindD
            | bool x =>
                rw [merged_val_nonmap t k _ (fun _ => by simp)] at hfindD
                rw [merge_step_nonmap _ k _ (fun _ => by simp)]
                exact (deep_merge (merge_step t k (.bool x)) rest).set_self k _ hfindD
            | null =>
                rw [merged_val_nonmap t k _ (fun _ => by simp)] at hfindD
                rw [merge_step_nonmap _ k _ (fun _ => by simp)]
                exact (deep_merge (merge_step t k .null) rest).set_self k _ hfindD
            | list x =>
                rw [merged_val_nonmap t k _ (fun _ => by simp)] at hfindD
                rw [merge_step_nonmap _ k _ (fun _ => by simp)]
                exact (deep_merge (merge_step t k (.list x)) rest).set_self k _ hfindD
          rw [deep_merge_cons_step t,
            deep_merge_cons_step (deep_merge (merge_step t k v) rest), hstepD]
          exact ih (merge_step t k v) rest (by omega) hMwf hrest

/-- Merging the same well-formed source twice gives the same result as
merging it once. -/
theorem deep_merge_idem (t s : ValMap) (ht : t.wf = true) (hs : s.wf = true) :
    deep_merge (deep_merge t s) s = deep_merge t s :=
  deep_merge_idem_aux s.size t s le_rfl ht hs

/-- Merging a well-formed dict into itself leaves it unchanged. -/
theorem deep_merge_self (m : ValMap) (hm : m.wf = true) : deep_merge m m = m := by
  have h := deep_merge_idem .nil m rfl hm
  rwa [deep_merge_nil_left m (ValMap.wf_keys_nodup m hm)] at h

/-! ### Python equality: reflexivity and key-order insensitivity -/

/-- First-match lookup on a Lean-level association list (used for the
differ's outer app-id → manifest dicts). -/
def lookupAssoc (k : String) : List (String × Val) → Option Val
  | [] => none
  | (k', v) :: rest => if k' = k then some v else lookupAssoc k rest

@[simp] theorem lookupAssoc_nil (k : String) : lookupAssoc k [] = none := rfl

@[simp] theorem lookupAssoc_cons (k k' : String) (v : Val) (rest : List (String × Val)) :
    lookupAssoc k ((k', v) :: rest) = if k' = k then some v else lookupAssoc k rest := rfl

@[simp] theorem ValMap.toList_ofList : ∀ l : List (String × Val), (ValMap.ofList l).toList = l
  | [] => rfl
  | (k, v) :: rest => by simp [ValMap.ofList, ValMap.toList, ValMap.toList_ofList rest]

@[simp] theorem ValMap.keys_ofList : ∀ l : List (String × Val),
    (ValMap.ofList l).keys = l.map Prod.fst
  | [] => rfl
  | (k, v) :: rest => by simp [ValMap.ofList, ValMap.keys_ofList rest]

@[simp] theorem ValMap.length_ofList : ∀ l : List (String × Val),
    (ValMap.ofList l).length = l.length
  | [] => rfl
  | (k, v) :: rest => by simp [ValMap.ofList, ValMap.length, ValMap.length_ofList rest]

@[simp] theorem ValMap.find?_ofList (k : String) : ∀ l : List (String × Val),
    (ValMap.ofList l).find? k = lookupAssoc k l
  | [] => rfl
  | (k', v) :: rest => by
      simp [ValMap.ofList, ValMap.find?_ofList k rest]

theorem ValMap.keys_eq_toList_map (m : ValMap) : m.keys = m.toList.map Prod.fst := by
  induction m with
  | nil => rfl
  | cons k v rest ih => simp [ValMap.toList, ih]

theorem ValMap.find?_of_mem_toList (m : ValMap) (k : String) (v : Val)
    (hn : m.keys.Nodup) (h : (k, v) ∈ m.toList) : m.find? k = some v := by
  induction m with
  | nil => simp [ValMap.toList] at h
  | cons k' v' rest ih =>
      simp only [ValMap.keys_cons, List.nodup_cons] at hn
      simp only [ValMap.toList, List.mem_cons] at h
      rcases h with h | h
      · rw [Prod.mk.injEq] at h
        obtain ⟨h1, h2⟩ := h
        subst h1
        subst h2
        simp
      · have hk : k' ≠ k := by
          intro he
          subst he
          exact hn.1 (by
            rw [ValMap.keys_eq_toList_map]
            exact List.mem_map_of_mem Prod.fst h)
        simp [hk, ih hn.2 h]

theorem lookupAssoc_of_mem {l : List (String × Val)} {k : String} {v : Val}
    (hn : (l.map Prod.fst).Nodup) (h : (k, v) ∈ l) : lookupAssoc k l = some v := by
  have h1 : (ValMap.ofList l).find? k = some v := by
    refine ValMap.find?_of_mem_toList _ k v ?_ ?_
    · rw [ValMap.keys_ofList]
      exact hn
    · rw [ValMap.toList_ofList]
      exact h
  rwa [ValMap.find?_ofList] at h1

theorem lookupAssoc_perm {l₁ l₂ : List (String × Val)} (hp : l₁.Perm l₂)
    (hn : (l₁.map Prod.fst).Nodup) (k : String) : lookupAssoc k l₁ = lookupAssoc k l₂ := by
  induction hp with
  | nil => rfl
  | cons p _ ih =>
      obtain ⟨k', v'⟩ := p
      simp only [List.map_cons, List.nodup_cons] at hn
      simp [ih hn.2]
  | swap p q l =>
      obtain ⟨ka, va⟩ := p
      obtain ⟨kb, vb⟩ := q
      simp only [List.map_cons, List.nodup_cons, List.mem_cons, not_or] at hn
      have hne : kb ≠ ka := hn.1.1
      by_cases ha : ka = k
      · by_cases hb : kb = k
        · exact absurd (hb.trans ha.symm) hne
        · simp [ha, hb]
      · by_cases hb : kb = k <;> simp [ha, hb]
  | trans h12 _ ih1 ih2 =>
      rw [ih1 hn, ih2 ((h12.map Prod.fst).nodup_iff.mp hn)]

/-- Keys of a dict are nodup and values well-formed when the dict is
well-formed; packaged for entries. -/
theorem ValMap.wf_entry (m : ValMap) (hm : m.wf = true) {k : String} {v : Val}
    (h : (k, v) ∈ m.toList) : v.wf = true := by
  induction m with
  | nil => simp [ValMap.toList] at h
  | cons k' v' rest ih =>
      rw [ValMap.wf_cons_iff] at hm
      simp only [ValMap.toList, List.mem_cons] at h
      rcases h with h | h
      · have := congrArg Prod.snd h
        simp at this
        exact this ▸ hm.2.1
      · exact ih hm.2.2 h

theorem pyRefl_aux : ∀ n,
    (∀ v : Val, v.size ≤ n → v.wf = true → pyEq v v = true) ∧
    (∀ xs : ValList, xs.size ≤ n → xs.wf = true → pyEqList xs xs = true) ∧
    (∀ sub m : ValMap, sub.size ≤ n → sub.wf = true →
      (∀ p ∈ sub.toList, m.find? p.1 = some p.2) → pyEqMapSub sub m = true) := by
  intro n
  induction n with
  | zero =>
      refine ⟨fun v hv hw => ?_, fun xs hxs hw => ?_, fun sub m hsub hw hent => ?_⟩
      · have h1 := Val.size_pos v
        exact absurd hv (by omega)
      · cases xs with
        | nil => rfl
        | cons v rest =>
            have h1 := Val.size_pos v
            simp only [ValList.size] at hxs
            exact absurd hxs (by omega)
      · cases sub with
        | nil => rfl
        | cons k v rest =>
            have h1 := Val.size_pos v
            simp only [ValMap.size] at hsub
            exact absurd hsub (by omega)
  | succ n ih =>
      obtain ⟨ihv, ihl, ihm⟩ := ih
      refine ⟨fun v hv hw => ?_, fun xs hxs hw => ?_, fun sub m hsub hw hent => ?_⟩
      · cases v with
        | str x => simp [pyEq]
        | int x => simp [pyEq]
        | bool x => simp [pyEq]
        | null => simp [pyEq]
        | list xs =>
            rw [pyEq]
            refine ihl xs ?_ (by simpa using hw)
            simp only [Val.size] at hv
            omega
        | map xs =>
            rw [pyEq]
            simp only [beq_self_eq_true, Bool.true_and]
            refine ihm xs xs ?_ (by simpa using hw) ?_
            · simp only [Val.size] at hv
              omega
            · intro p hp
              exact xs.find?_of_mem_toList p.1 p.2
                (xs.wf_keys_nodup (by simpa using hw)) (by simpa using hp)
      · cases xs with
        | nil => rfl
        | cons v rest =>
            simp only [ValList.wf, Bool.and_eq_true] at hw
            simp only [ValList.size] at hxs
            rw [pyEqList]
            simp only [Bool.and_eq_true]
            exact ⟨ihv v (by omega) hw.1, ihl rest (by omega) hw.2⟩
      · cases sub with
        | nil => rfl
        | cons k v rest =>
            rw [ValMap.wf_cons_iff] at hw
            simp only [ValMap.size] at hsub
            rw [pyEqMapSub]
            simp only [Bool.and_eq_true]
            constructor
            · have hfk : m.find? k = some v := hent (k, v) (by simp [ValMap.toList])
              rw [hfk]
              exact ihv v (by omega) hw.2.1
            · refine ihm rest m (by omega) hw.2.2 ?_
              intro p hp
              exact hent p (by simp [ValMap.toList, hp])

/-- Python `==` is reflexive on well-formed values. -/
theorem pyEq_refl (v : Val) (hw : v.wf = true) : pyEq v v = true :=
  (pyRefl_aux v.size).1 v le_rfl hw

/-- Python `==` on dicts is insensitive to key order: two dicts with
the same entries in permuted order (distinct keys, well-formed
values) compare equal. -/
theorem pyEq_mkMap_perm (l₁ l₂ : List (String × Val)) (hp : l₁.Perm l₂)
    (hwf : (Val.mkMap l₁).wf = true) : pyEq (Val.mkMap l₁) (Val.mkMap l₂) = true := by
  have hwfm : (ValMap.ofList l₁).wf = true := by simpa [Val.mkMap] using hwf
  have hn : (l₁.map Prod.fst).Nodup := by
    have := (ValMap.ofList l₁).wf_keys_nodup hwfm
    rwa [ValMap.keys_ofList] at this
  rw [Val.mkMap, Val.mkMap, pyEq]
  simp only [Bool.and_eq_true, beq_iff_eq]
  constructor
  · rw [ValMap.length_ofList, ValMap.length_ofList]
    exact hp.length_eq
  · refine (pyRefl_aux (ValMap.ofList l₁).size).2.2 (ValMap.ofList l₁) (ValMap.ofList l₂)
      le_rfl hwfm ?_
    intro p hp'
    rw [ValMap.toList_ofList] at hp'
    rw [ValMap.find?_ofList, ← lookupAssoc_perm hp hn p.1]
    exact lookupAssoc_of_mem hn (by simpa using hp')

/-! ## Config structures

The declared app/platform configurations are dicts of a fixed shape in
the source; they are embedded as typed structures with `Option` fields
for optional keys (an explicit `key: null` in YAML is not
distinguished from an absent key for these scalar fields; the program
treats them the same wherever it reads them through `.get`). -/

/-- Generic first-match lookup in a string-keyed table. -/
def lookupTable {α : Type} (k : String) : List (String × α) → Option α
  | [] => none
  | (k', v) :: rest => if k' = k then some v else lookupTable k rest

@[simp] theorem lookupTable_nil {α : Type} (k : String) :
    lookupTable (α := α) k [] = none := rfl

@[simp] theorem lookupTable_cons {α : Type} (k k' : String) (v : α)
    (rest : List (String × α)) :
    lookupTable k ((k', v) :: rest) = if k' = k then some v else lookupTable k rest := rfl

/-- One entry of an app's `ports` list. -/
structure PortCfg where
  name : Option String
  port : Int
  targetPort : Option Int
  protocol : Option String
  nodePort : Option Int
deriving DecidableEq

/-- One entry of an app's `storage` mapping.  Fields the source reads
by direct indexing (`mount`, and `path`/`size`/`server` in the branch
for their volume type) are plain fields; the others are optional. -/
structure VolumeCfg where
  type : String
  mount : String
  readonly : Option Bool
  path : String
  size : String
  storageClass : Option String
  accessMode : Option String
  server : String
deriving DecidableEq

/-- One app declaration from the `apps` mapping. -/
structure AppCfg where
  image : String
  type : Option String
  namespaceName : Option String
  profile : Option String
  nodeSelector : Option String
  network : Option String
  ports : List PortCfg
  storage : Option (List (String × VolumeCfg))
  env : ValMap
  ingress : Option Bool
deriving DecidableEq

/-- One resource profile: the `{cpu: {requests, limits}, memory:
{requests, limits}}` table entries the planner and translator index
into. -/
structure Profile where
  cpuRequests : String
  cpuLimits : String
  memRequests : String
  memLimits : String
deriving DecidableEq

/-- One entry of the platform `networkTypes` table. -/
structure NetworkTypeCfg where
  serviceType : Option String
  podOptions : ValMap
deriving DecidableEq

/-- The platform `ingressDefaults` table. -/
structure IngressDefaults where
  className : Option String
  annotations : ValMap
deriving DecidableEq

/-- One entry of the platform `nodeSelectors` table. -/
structure NodeSelCfg where
  capacity : ValMap
  labels : ValMap
deriving DecidableEq

/-- The platform configuration consulted by translator and planner. -/
structure PlatformConfig where
  resourceProfiles : List (String × Profile)
  networkTypes : List (String × NetworkTypeCfg)
  ingressDefaults : IngressDefaults
  nodeSelectors : List (String × NodeSelCfg)
deriving DecidableEq

/-- The `cluster` section of the app-level config. -/
structure ClusterCfg where
  domain : Option String
  defaultProfile : Option String
  defaultNodeSelector : Option String
deriving DecidableEq

/-! ## translator.py -/

/-- Embedding of `AppTranslator.translate_image`: split on the last
colon into repository and tag, defaulting the tag to `latest`. -/
def translate_image (image_str : String) : ValMap :=
  match image_str.data.reverse.span (fun c => !(c == ':')) with
  | (tagRev, _ :: repoRev) =>
      .cons "repository" (.str ⟨repoRev.reverse⟩) (.cons "tag" (.str ⟨tagRev.reverse⟩) .nil)
  | (_, []) =>
      .cons "repository" (.str image_str) (.cons "tag" (.str "latest") .nil)

/-- The service/ports entry built for one declared port. -/
def portEntry (serviceTypeRaw : Option String) (p : PortCfg) : ValMap :=
  let base : ValMap :=
    .cons "enabled" (.bool true) (.cons "port" (.int p.port)
      (.cons "targetPort" (.int (p.targetPort.getD p.port))
        (.cons "protocol" (.str (p.protocol.getD "TCP")) .nil)))
  match serviceTypeRaw, p.nodePort with
  | some st, some np => if st = "NodePort" then base.set "nodePort" (.int np) else base
  | _, _ => base

/-- The default HTTP port entry used when an app declares no ports. -/
def defaultHttpPort : ValMap :=
  .cons "enabled" (.bool true) (.cons "port" (.int 80)
    (.cons "targetPort" (.int 8080) (.cons "protocol" (.str "TCP") .nil)))

/-- Embedding of `AppTranslator.translate_network`. -/
def translate_network (network_types : List (String × NetworkTypeCfg))
    (network_type : String) (ports : List PortCfg) : ValMap :=
  let network_config := lookupTable network_type network_types
  let styp := ((network_config.bind NetworkTypeCfg.serviceType).getD "ClusterIP")
  let pod_options := (network_config.map NetworkTypeCfg.podOptions).getD .nil
  let portsMap : ValMap :=
    if ports.isEmpty then ValMap.cons "http" (.map defaultHttpPort) .nil
    else
      (ports.enum).foldl (fun acc ip =>
        let port_name := ip.2.name.getD ("port-" ++ natToDecString ip.1)
        acc.set port_name (.map (portEntry (network_config.bind NetworkTypeCfg.serviceType) ip.2)))
        .nil
  let result : ValMap :=
    .cons "service" (.map (.cons "main" (.map (.cons "controller" (.str "main")
      (.cons "type" (.str styp) (.cons "ports" (.map portsMap) .nil)))) .nil)) .nil
  if pod_options == ValMap.nil then result
  else result.set "defaultPodOptions" (.map pod_options)

/-- The persistence entry built for one declared volume. -/
def volumeEntry (volume_config : VolumeCfg) : ValMap :=
  let base : ValMap :=
    .cons "enabled" (.bool true) (.cons "type" (.str volume_config.type)
      (.cons "globalMounts" (.list (.cons (.map (.cons "path" (.str volume_config.mount)
        (.cons "readOnly" (.bool (volume_config.readonly.getD false)) .nil))) .nil)) .nil))
  if volume_config.type = "hostPath" then
    base.set "hostPath" (.str volume_config.path)
  else if volume_config.type = "persistentVolumeClaim" then
    let b1 := base.set "size" (.str volume_config.size)
    let b2 := match volume_config.storageClass with
      | some sc => b1.set "storageClass" (.str sc)
      | none => b1
    b2.set "accessMode" (.str (volume_config.accessMode.getD "ReadWriteOnce"))
  else if volume_config.type = "nfs" then
    (base.set "server" (.str volume_config.server)).set "path" (.str volume_config.path)
  else base

/-- Embedding of `AppTranslator.translate_storage`. -/
def translate_storage (storage_config : List (String × VolumeCfg)) : ValMap :=
  let persistence :=
    storage_config.foldl (fun acc p => acc.set p.1 (.map (volumeEntry p.2))) .nil
  if persistence == ValMap.nil then .nil
  else .cons "persistence" (.map persistence) .nil

/-- Embedding of `AppTranslator.translate_resources`: an unknown or
absent profile name yields the empty dict (a no-op facet). -/
def translate_resources (resource_profiles : List (String × Profile))
    (profile_name : Option String) : ValMap :=
  match profile_name.bind (fun n => lookupTable n resource_profiles) with
  | none => .nil
  | some p =>
      .cons "controllers" (.map (.cons "main" (.map (.cons "containers"
        (.map (.cons "main" (.map (.cons "resources" (.map (
          ValMap.cons "requests" (.map (.cons "cpu" (.str p.cpuRequests)
            (.cons "memory" (.str p.memRequests) .nil)))
          (.cons "limits" (.map (.cons "cpu" (.str p.cpuLimits)
            (.cons "memory" (.str p.memLimits) .nil))) .nil))) .nil)) .nil)) .nil)) .nil)) .nil

/-- Embedding of `AppTranslator.translate_node_selector`: when the
selector resolves to no labels the facet is empty. -/
def translate_node_selector (node_selectors : List (String × NodeSelCfg))
    (node_selector : Option String) : ValMap :=
  let labels :=
    ((node_selector.bind (fun n => lookupTable n node_selectors)).map NodeSelCfg.labels).getD .nil
  if labels == ValMap.nil then .nil
  else .cons "defaultPodOptions" (.map (.cons "nodeSelector" (.map labels) .nil)) .nil

/-- Embedding of `AppTranslator.translate_ingress`. -/
def translate_ingress (ingress_defaults : IngressDefaults) (app_name domain : String)
    (enabled : Bool) : ValMap :=
  if !enabled then .nil
  else
    let host := app_name ++ "." ++ domain
    let serviceRef : ValMap :=
      .cons "identifier" (.str "main") (.cons "port" (.str "http") .nil)
    let pathEntry : ValMap :=
      .cons "path" (.str "/") (.cons "pathType" (.str "Prefix")
        (.cons "service" (.map serviceRef) .nil))
    let hostEntry : ValMap :=
      .cons "host" (.str host)
        (.cons "paths" (.list (.cons (.map pathEntry) .nil)) .nil)
    let tlsEntry : ValMap :=
      .cons "hosts" (.list (.cons (.str host) .nil))
        (.cons "secretName" (.str (app_name ++ "-tls")) .nil)
    let mainEntry : ValMap :=
      .cons "enabled" (.bool true)
        (.cons "className" (.str (ingress_defaults.className.getD "traefik"))
          (.cons "annotations" (.map ingress_defaults.annotations)
            (.cons "hosts" (.list (.cons (.map hostEntry) .nil))
              (.cons "tls" (.list (.cons (.map tlsEntry) .nil)) .nil))))
    .cons "ingress" (.map (.cons "main" (.map mainEntry) .nil)) .nil

/-- The base values tree of `AppTranslator.translate_app` before the
five facets are merged. -/
def translate_base (app_name : String) (app_config : AppCfg) : ValMap :=
  ValMap.cons "controllers" (.map (.cons "main" (.map (
    ValMap.cons "type" (.str (app_config.type.getD "deployment")) (
    ValMap.cons "containers" (.map (.cons "main" (.map (
      ValMap.cons "image" (.map (translate_image app_config.image)) (
      ValMap.cons "env" (.map app_config.env) .nil))) .nil)) .nil))) .nil))
  (.cons "defaultPodOptions" (.map .nil) .nil)

/-- The five facet configurations of `translate_app`, in merge order. -/
def translate_facets (platform : PlatformConfig) (app_name : String) (app_config : AppCfg)
    (cluster_config : ClusterCfg) : List ValMap :=
  [translate_resources platform.resourceProfiles
      (app_config.profile <|> cluster_config.defaultProfile),
   translate_node_selector platform.nodeSelectors
      (app_config.nodeSelector <|> cluster_config.defaultNodeSelector),
   translate_network platform.networkTypes (app_config.network.getD "clusterip")
      app_config.ports,
   (match app_config.storage with
    | some st => translate_storage st
    | none => .nil),
   (match cluster_config.domain with
    | some d =>
        if !(d == "") && app_config.ingress.getD true then
          translate_ingress platform.ingressDefaults app_name d true
        else .nil
    | none => .nil)]

/-- Embedding of `AppTranslator.translate_app`: the base tree with
each non-empty facet deep-merged in order. -/
def translate_app (platform : PlatformConfig) (app_name : String) (app_config : AppCfg)
    (cluster_config : ClusterCfg) : ValMap :=
  (translate_facets platform app_name app_config cluster_config).foldl
    (fun acc c => if c == ValMap.nil then acc else deep_merge acc c)
    (translate_base app_name app_config)

/-! ## capacity_planner.py -/

/-- The app-level configuration document (the parts the capacity
planner reads): the `apps` mapping, the `cluster` section, and the
`nodes` mapping of node-group id to a declaration dict. -/
structure AppsConfig where
  apps : List (String × AppCfg)
  cluster : ClusterCfg
  nodes : List (String × ValMap)
deriving DecidableEq

/-- A value passed where Python expects `str` (before `.endswith` is
called on it); a non-string raises, modelled as `none`. -/
def pyAsStr : Val → Option String
  | .str s => some s
  | _ => none

/-- Fallback branch of `CapacityPlanner.get_node_capacity`: the
platform `nodeSelectors` capacity table, then the hard-coded default
of 4000m CPU, 8Gi memory, one node. -/
def get_node_capacity_platform (node_selectors : List (String × NodeSelCfg))
    (node_selector : String) : Option NodeCapacity :=
  let capacity := ((lookupTable node_selector node_selectors).map NodeSelCfg.capacity).getD .nil
  if capacity == ValMap.nil then do
    let cpu ← ResourceAmount.parse_cpu "4000m"
    let memory ← ResourceAmount.parse_memory "8Gi"
    pure ⟨cpu, memory, node_selector, 1, none⟩
  else do
    let cpuStr ← match capacity.find? "cpu" with
      | some v => pyAsStr v
      | none => pure "4000m"
    let memStr ← match capacity.find? "memory" with
      | some v => pyAsStr v
      | none => pure "8Gi"
    let cpu ← ResourceAmount.parse_cpu cpuStr
    let memory ← ResourceAmount.parse_memory memStr
    let count ← pyToInt (dictGet capacity "count" (.int 1))
    pure ⟨cpu, memory, node_selector, count, none⟩

/-- Embedding of `CapacityPlanner.get_node_capacity`: a non-empty
declaration under the app-level `nodes` mapping wins (with aliases
`cores` for `cpu` and `mem` for `memory`, and per-field defaults);
otherwise the platform table; otherwise the hard-coded default. -/
def get_node_capacity (node_selectors : List (String × NodeSelCfg)) (node_selector : String)
    (apps_config : AppsConfig) : Option NodeCapacity :=
  let cfg := (lookupTable node_selector apps_config.nodes).getD .nil
  if cfg == ValMap.nil then get_node_capacity_platform node_selectors node_selector
  else do
    let cpu_val := dictGet cfg "cpu" (dictGet cfg "cores" .null)
    let mem_val := dictGet cfg "memory" (dictGet cfg "mem" .null)
    let disk_val := dictGet cfg "disk" .null
    let count ← pyToInt (dictGet cfg "count" (.int 1))
    let cpu ← if cpu_val == Val.null then ResourceAmount.parse_cpu "4000m"
              else ResourceAmount.parse_cpu (pyStr cpu_val)
    let memory ← if mem_val == Val.null then ResourceAmount.parse_memory "8Gi"
                 else ResourceAmount.parse_memory (pyStr mem_val)
    let disk ← if disk_val == Val.null then pure none
               else (ResourceAmount.parse_memory (pyStr disk_val)).map some
    pure ⟨cpu, memory, node_selector, count, disk⟩

/-- The default minimal profile of `CapacityPlanner.get_app_resources`. -/
def default_profile : Profile := ⟨"100m", "500m", "128Mi", "512Mi"⟩

/-- Embedding of `CapacityPlanner.get_app_resources`. -/
def get_app_resources (resource_profiles : List (String × Profile)) (app_name : String)
    (app_config : AppCfg) (cluster_config : ClusterCfg) : Option AppResources := do
  let profile_name := app_config.profile <|> cluster_config.defaultProfile
  let profile :=
    (profile_name.bind (fun n => lookupTable n resource_profiles)).getD default_profile
  let cpu_request ← ResourceAmount.parse_cpu profile.cpuRequests
  let cpu_limit ← ResourceAmount.parse_cpu profile.cpuLimits
  let memory_request ← ResourceAmount.parse_memory profile.memRequests
  let memory_limit ← ResourceAmount.parse_memory profile.memLimits
  pure ⟨app_name, app_config.namespaceName.getD "default",
    (app_config.nodeSelector <|> cluster_config.defaultNodeSelector).getD "default", 1,
    ⟨cpu_request, cpu_limit, memory_request, memory_limit⟩⟩

/-- Aggregated demand and capacity for one node group (scalar parts of
the `usage` entry; the source wraps them back into `ResourceAmount`
display objects with an empty original text). -/
structure GroupUsage where
  cpu_request : ℚ
  cpu_limit : ℚ
  memory_request : ℚ
  memory_limit : ℚ
  total_cpu_capacity : ℚ
  total_memory_capacity : ℚ
deriving DecidableEq

/-- The four utilization percentages for one node group. -/
structure GroupPercentages where
  cpu_request : ℚ
  cpu_limit : ℚ
  memory_request : ℚ
  memory_limit : ℚ
deriving DecidableEq

/-- One entry of the analysis mapping. -/
structure GroupAnalysis where
  capacity : NodeCapacity
  apps : List AppResources
  usage : GroupUsage
  percentages : GroupPercentages
deriving DecidableEq

/-- The per-group body of `CapacityPlanner.analyze_capacity`. -/
def analyze_group (capacity : NodeCapacity) (apps_list : List AppResources) : GroupAnalysis :=
  let effective_replicas : ℚ := ((max 1 capacity.count : Int) : ℚ)
  let total_cpu_request :=
    (apps_list.map (fun a => a.resources.cpu_request.value)).sum * effective_replicas
  let total_cpu_limit :=
    (apps_list.map (fun a => a.resources.cpu_limit.value)).sum * effective_replicas
  let total_memory_request :=
    (apps_list.map (fun a => a.resources.memory_request.value)).sum * effective_replicas
  let total_memory_limit :=
    (apps_list.map (fun a => a.resources.memory_limit.value)).sum * effective_replicas
  let total_cpu_capacity := capacity.cpu.value * effective_replicas
  let total_memory_capacity := capacity.memory.value * effective_replicas
  { capacity := capacity
    apps := apps_list
    usage := ⟨total_cpu_request, total_cpu_limit, total_memory_request, total_memory_limit,
      total_cpu_capacity, total_memory_capacity⟩
    percentages := ⟨
      if total_cpu_capacity ≠ 0 then total_cpu_request / total_cpu_capacity * 100 else 0,
      if total_cpu_capacity ≠ 0 then total_cpu_limit / total_cpu_capacity * 100 else 0,
      if total_memory_capacity ≠ 0 then total_memory_request / total_memory_capacity * 100 else 0,
      if total_memory_capacity ≠ 0 then total_memory_limit / total_memory_capacity * 100 else 0⟩ }

/-- Deduplicate keeping first occurrences: the order in which a
`defaultdict` built by insertion iterates its keys. -/
def dedupFirstAux : List String → List String → List String
  | [], _ => []
  | x :: xs, seen =>
      if seen.contains x then dedupFirstAux xs seen else x :: dedupFirstAux xs (x :: seen)

/-- Keys of the app grouping in first-appearance order. -/
def dedupFirst (l : List String) : List String := dedupFirstAux l []

/-- Option-valued `mapM` written recursively (a Python loop that can
raise). -/
def mapMOpt {α β : Type} (f : α → Option β) : List α → Option (List β)
  | [] => some []
  | x :: xs => do
      let y ← f x
      let ys ← mapMOpt f xs
      pure (y :: ys)

/-- Embedding of `CapacityPlanner.analyze_capacity`: group the apps by
resolved node selector, then analyze each group against its resolved
capacity. -/
def analyze_capacity (node_selectors : List (String × NodeSelCfg))
    (resource_profiles : List (String × Profile)) (apps_config : AppsConfig) :
    Option (List (String × GroupAnalysis)) := do
  let appResList ← mapMOpt
    (fun p => get_app_resources resource_profiles p.1 p.2 apps_config.cluster) apps_config.apps
  let selectors := dedupFirst (appResList.map AppResources.node_selector)
  mapMOpt (fun sel => do
      let capacity ← get_node_capacity node_selectors sel apps_config
      pure (sel, analyze_group capacity (appResList.filter (fun a => a.node_selector == sel))))
    selectors

/-- Status classification of `CapacityPlanner.print_capacity_analysis`:
thresholds applied to the larger of the two request percentages. -/
def capacity_status (percentages : GroupPercentages) : String :=
  let max_request_pct := max percentages.cpu_request percentages.memory_request
  if max_request_pct > 100 then "over"
  else if max_request_pct > 80 then "near"
  else "available"

theorem mapMOpt_mem {α β : Type} (f : α → Option β) :
    ∀ (xs : List α) (ys : List β), mapMOpt f xs = some ys →
      ∀ y ∈ ys, ∃ x ∈ xs, f x = some y := by
  intro xs
  induction xs with
  | nil =>
      intro ys h y hy
      simp [mapMOpt] at h
      subst h
      simp at hy
  | cons x xs ih =>
      intro ys h y hy
      simp only [mapMOpt, Option.bind_eq_bind] at h
      cases hfx : f x with
      | none => rw [hfx] at h; simp at h
      | some y0 =>
          rw [hfx] at h
          simp only [Option.some_bind] at h
          cases hrest : mapMOpt f xs with
          | none => rw [hrest] at h; simp at h
          | some ys0 =>
              rw [hrest] at h
              simp only [Option.some_bind, Option.pure_def, Option.some.injEq] at h
              subst h
              rcases List.mem_cons.mp hy with rfl | hy'
              · exact ⟨x, List.mem_cons_self x xs, hfx⟩
              · obtain ⟨x', hx', hfx'⟩ := ih ys0 hrest y hy'
                exact ⟨x', List.mem_cons_of_mem x hx', hfx'⟩

/-! ## differ.py -/

/-- One change tuple produced by `ManifestDiffer.get_changes`:
`(action, app_name, before, after)`. -/
structure ChangeRecord where
  action : String
  app : String
  before : Option Val
  after : Option Val
deriving DecidableEq

/-- Embedding of `ManifestDiffer._normalize_manifest`: a shallow copy
that removes nothing, the identity on the compared value. -/
def normalize_manifest (manifest : Val) : Val := manifest

/-- Embedding of `ManifestDiffer.get_changes` over the two app-id →
manifest states: new apps produce `create` records, removed apps
`delete` records, apps present in both an `update` record exactly when
the normalized manifests compare unequal. -/
def get_changes (current_state desired_state : List (String × Val)) : List ChangeRecord :=
  (desired_state.filter (fun p => (lookupAssoc p.1 current_state).isNone)).map
    (fun p => ⟨"create", p.1, none, some p.2⟩)
  ++ (current_state.filter (fun p => (lookupAssoc p.1 desired_state).isNone)).map
    (fun p => ⟨"delete", p.1, some p.2, none⟩)
  ++ desired_state.filterMap (fun p =>
      match lookupAssoc p.1 current_state with
      | some cur =>
          if pyEq (normalize_manifest cur) (normalize_manifest p.2) then none
          else some ⟨"update", p.1, some cur, some p.2⟩
      | none => none)

/-- Embedding of `ManifestDiffer._get_nested`: walk the keys, failing
to `none` when the current value is not a dict, the key is absent, or
the stored value is `None`. -/
def get_nested : Val → List String → Option Val
  | cur, [] => some cur
  | cur, k :: ks =>
      match cur with
      | .map m =>
          match m.find? k with
          | some v => if v == Val.null then none else get_nested v ks
          | none => none
      | _ => none

/-- The path to the image dict inside a values tree. -/
def imagePath : List String := ["controllers", "main", "containers", "main", "image"]

/-- The path to the main container inside a values tree. -/
def containerPath : List String := ["controllers", "main", "containers", "main"]

/-- Embedding of `ManifestDiffer._get_image_from_values`: a
`repository:tag` string, or the sentinel `"unknown"` when the path is
absent or malformed or the repository is empty. -/
def get_image_from_values (values : Val) : String :=
  match get_nested values imagePath with
  | some (.map image_config) =>
      let repoRaw := dictGet image_config "repository" (.str "")
      let repo := if pyTruthy repoRaw then repoRaw else Val.str ""
      let tagRaw := dictGet image_config "tag" (.str "latest")
      let tag := if pyTruthy tagRaw then tagRaw else Val.str "latest"
      if pyTruthy repo then pyStr repo ++ ":" ++ pyStr tag else "unknown"
  | _ => "unknown"

/-- Embedding of `ManifestDiffer._get_resources_from_values`: the
resources sub-dict, or the empty dict when the path is absent or
malformed. -/
def get_resources_from_values (values : Val) : ValMap :=
  match get_nested values containerPath with
  | some (.map container) =>
      match container.find? "resources" with
      | some (.map resources) => resources
      | some _ => .nil
      | none => .nil
  | _ => .nil

/-! ## Claim support lemmas: quantity strings -/

theorem string_eta (s : String) : String.mk s.data = s := rfl

theorem isPrefixOf_append_self (l r : List Char) : l.isPrefixOf (l ++ r) = true := by
  induction l with
  | nil => simp [List.isPrefixOf]
  | cons a l ih => simp [List.isPrefixOf, ih]

theorem endsWithChars_append (cs suf : List Char) : endsWithChars (cs ++ suf) suf = true := by
  rw [endsWithChars, List.reverse_append]
  exact isPrefixOf_append_self suf.reverse cs.reverse

theorem parseMemoryAux_skip (s : String) (u : String × ℚ) (rest : List (String × ℚ))
    (h : endsWithChars s.data u.1.data = false) :
    parseMemoryAux s (u :: rest) = parseMemoryAux s rest := by
  obtain ⟨suf, mult⟩ := u
  simp [parseMemoryAux, h]

theorem parseMemoryAux_hit (s : String) (u : String × ℚ) (rest : List (String × ℚ))
    (h : endsWithChars s.data u.1.data = true) :
    parseMemoryAux s (u :: rest) =
      (parseDecimal ⟨s.data.take (s.data.length - u.1.data.length)⟩).map
        (fun q => ⟨q * u.2, s⟩) := by
  obtain ⟨suf, mult⟩ := u
  simp [parseMemoryAux, h]

theorem take_prefix_of_append (cs suf : List Char) :
    (cs ++ suf).take ((cs ++ suf).length - suf.length) = cs := by
  have h : (cs ++ suf).length - suf.length = cs.length := by
    simp
  rw [h]
  exact List.take_left cs suf

theorem parseMemoryAux_first_hit (s : String) (pre post : List (String × ℚ))
    (suf : String) (mult : ℚ)
    (hskips : ∀ u ∈ pre, endsWithChars s.data u.1.data = false)
    (hhit : endsWithChars s.data suf.data = true) :
    parseMemoryAux s (pre ++ (suf, mult) :: post) =
      (parseDecimal ⟨s.data.take (s.data.length - suf.data.length)⟩).map
        (fun q => ⟨q * mult, s⟩) := by
  induction pre with
  | nil => exact parseMemoryAux_hit s (suf, mult) post hhit
  | cons u pre ih =>
      rw [List.cons_append, parseMemoryAux_skip s u _ (hskips u (List.mem_cons_self u pre))]
      exact ih (fun u' hu' => hskips u' (List.mem_cons_of_mem u hu'))

theorem parse_memory_suffix_val (cs : List Char) (pre post : List (String × ℚ))
    (suf : String) (mult q : ℚ)
    (htable : memoryUnits = pre ++ (suf, mult) :: post)
    (hskips : ∀ u ∈ pre, endsWithChars (cs ++ suf.data) u.1.data = false)
    (hq : parseDecimal ⟨cs⟩ = some q) :
    ResourceAmount.parse_memory ⟨cs ++ suf.data⟩ = some ⟨q * mult, ⟨cs ++ suf.data⟩⟩ := by
  have h := parseMemoryAux_first_hit ⟨cs ++ suf.data⟩ pre post suf mult hskips
    (endsWithChars_append cs suf.data)
  calc ResourceAmount.parse_memory ⟨cs ++ suf.data⟩
      = parseMemoryAux ⟨cs ++ suf.data⟩ memoryUnits := rfl
    _ = parseMemoryAux ⟨cs ++ suf.data⟩ (pre ++ (suf, mult) :: post) := by rw [htable]
    _ = (parseDecimal ⟨(cs ++ suf.data).take ((cs ++ suf.data).length - suf.data.length)⟩).map
          (fun q => ⟨q * mult, ⟨cs ++ suf.data⟩⟩) := h
    _ = some ⟨q * mult, ⟨cs ++ suf.data⟩⟩ := by rw [take_prefix_of_append, hq]; rfl

/-- C6: `parse_cpu` and `parse_memory` normalize every well-formed
quantity string to the documented base unit: a CPU string ending in
`m` parses to its numeric prefix taken directly as millicores; a
plain-number CPU string parses to its value scaled by 1000; a memory
string with a recognized suffix parses to its numeric prefix times
that suffix's multiplier (`Ki=1024, Mi=1024², Gi=1024³, Ti=1024⁴,
K=1000, M=1000², G=1000³, T=1000⁴`); an unsuffixed memory string is
interpreted as raw bytes. -/
theorem quantity_normalization :
    (∀ (cs : List Char) (q : ℚ), parseDecimal ⟨cs⟩ = some q →
      ResourceAmount.parse_cpu ⟨cs ++ ['m']⟩ = some ⟨q, ⟨cs ++ ['m']⟩⟩) ∧
    (∀ (x : String) (q : ℚ), parseDecimal x = some q → x.data.getLast? ≠ some 'm' →
      ResourceAmount.parse_cpu x = some ⟨q * 1000, x⟩) ∧
    (∀ u ∈ memoryUnits, ∀ (cs : List Char) (q : ℚ), parseDecimal ⟨cs⟩ = some q →
      ResourceAmount.parse_memory ⟨cs ++ u.1.data⟩ = some ⟨q * u.2, ⟨cs ++ u.1.data⟩⟩) ∧
    (∀ (x : String) (q : ℚ), parseDecimal x = some q →
      (∀ u ∈ memoryUnits, endsWithChars x.data u.1.data = false) →
      ResourceAmount.parse_memory x = some ⟨q, x⟩) := by
  refine ⟨?_, ?_, ?_, ?_⟩
  · intro cs q hq
    unfold ResourceAmount.parse_cpu
    have h1 : (⟨cs ++ ['m']⟩ : String).data = cs ++ ['m'] := rfl
    rw [h1, List.getLast?_concat, if_pos rfl, List.dropLast_concat, string_eta, hq]
    rfl
  · intro x q hq hlast
    unfold ResourceAmount.parse_cpu
    rw [if_neg hlast, hq]
    rfl
  · intro u hmem cs q hq
    have hsplit : ∀ suffix : String, ∀ pat ∈ memoryUnits,
        (pat.1.data.reverse.isPrefixOf (suffix.data.reverse ++ cs.reverse)) = false →
        endsWithChars (cs ++ suffix.data) pat.1.data = false := by
      intro suffix pat _ h
      unfold endsWithChars
      rw [List.reverse_append]
      exact h
    simp only [memoryUnits, List.mem_cons, List.not_mem_nil, or_false] at hmem
    rcases hmem with rfl | rfl | rfl | rfl | rfl | rfl | rfl | rfl
    · exact parse_memory_suffix_val cs []
        [("Mi", 1024 ^ 2), ("Gi", 1024 ^ 3), ("Ti", 1024 ^ 4),
         ("K", 1000), ("M", 1000 ^ 2), ("G", 1000 ^ 3), ("T", 1000 ^ 4)]
        "Ki" 1024 q rfl (by intro u hu; simp at hu) hq
    · refine parse_memory_suffix_val cs [("Ki", 1024)]
        [("Gi", 1024 ^ 3), ("Ti", 1024 ^ 4),
         ("K", 1000), ("M", 1000 ^ 2), ("G", 1000 ^ 3), ("T", 1000 ^ 4)]
        "Mi" (1024 ^ 2) q rfl ?_ hq
      intro u hu
      simp only [List.mem_singleton] at hu
      subst hu
      unfold endsWithChars
      rw [List.reverse_append]
      rfl
    · refine parse_memory_suffix_val cs [("Ki", 1024), ("Mi", 1024 ^ 2)]
        [("Ti", 1024 ^ 4), ("K", 1000), ("M", 1000 ^ 2), ("G", 1000 ^ 3), ("T", 1000 ^ 4)]
        "Gi" (1024 ^ 3) q rfl ?_ hq
      intro u hu
      simp only [List.mem_cons, List.not_mem_nil, or_false] at hu
      rcases hu with rfl | rfl <;> (unfold endsWithChars; rw [List.reverse_append]; rfl)
    · refine parse_memory_suffix_val cs [("Ki", 1024), ("Mi", 1024 ^ 2), ("Gi", 1024 ^ 3)]
        [("K", 1000), ("M", 1000 ^ 2), ("G", 1000 ^ 3), ("T", 1000 ^ 4)]
        "Ti" (1024 ^ 4) q rfl ?_ hq
      intro u hu
      simp only [List.mem_cons, List.not_mem_nil, or_false] at hu
      rcases hu with rfl | rfl | rfl <;> (unfold endsWithChars; rw [List.reverse_append]; rfl)
    · refine parse_memory_suffix_val cs
        [("Ki", 1024), ("Mi", 1024 ^ 2), ("Gi", 1024 ^ 3), ("Ti", 1024 ^ 4)]
        [("M", 1000 ^ 2), ("G", 1000 ^ 3), ("T", 1000 ^ 4)]
        "K" 1000 q rfl ?_ hq
      intro u hu
      simp only [List.mem_cons, List.not_mem_nil, or_false] at hu
      rcases hu with rfl | rfl | rfl | rfl <;>
        (unfold endsWithChars; rw [List.reverse_append]; rfl)
    · refine parse_memory_suffix_val cs
        [("Ki", 1024), ("Mi", 1024 ^ 2), ("Gi", 1024 ^ 3), ("Ti", 1024 ^ 4), ("K", 1000)]
        [("G", 1000 ^ 3), ("T", 1000 ^ 4)]
        "M" (1000 ^ 2) q rfl ?_ hq
      intro u hu
      simp only [List.mem_cons, List.not_mem_nil, or_false] at hu
      rcases hu with rfl | rfl | rfl | rfl | rfl <;>
        (unfold endsWithChars; rw [List.reverse_append]; rfl)
    · refine parse_memory_suffix_val cs
        [("Ki", 1024), ("Mi", 1024 ^ 2), ("Gi", 1024 ^ 3), ("Ti", 1024 ^ 4), ("K", 1000),
         ("M", 1000 ^ 2)]
        [("T", 1000 ^ 4)]
        "G" (1000 ^ 3) q rfl ?_ hq
      intro u hu
      simp only [List.mem_cons, List.not_mem_nil, or_false] at hu
      rcases hu with rfl | rfl | rfl | rfl | rfl | rfl <;>
        (unfold endsWithChars; rw [List.reverse_append]; rfl)
    · refine parse_memory_suffix_val cs
        [("Ki", 1024), ("Mi", 1024 ^ 2), ("Gi", 1024 ^ 3), ("Ti", 1024 ^ 4), ("K", 1000),
         ("M", 1000 ^ 2), ("G", 1000 ^ 3)]
        []
        "T" (1000 ^ 4) q rfl ?_ hq
      intro u hu
      simp only [List.mem_cons, List.not_mem_nil, or_false] at hu
      rcases hu with rfl | rfl | rfl | rfl | rfl | rfl | rfl <;>
        (unfold endsWithChars; rw [List.reverse_append]; rfl)
  · intro x q hq hnone
    have hall : ∀ units : List (String × ℚ), (∀ u ∈ units, endsWithChars x.data u.1.data = false) →
        parseMemoryAux x units = some ⟨q, x⟩ := by
      intro units
      induction units with
      | nil =>
          intro h
          show (parseDecimal ⟨x.data⟩).map _ = _
          rw [string_eta, hq]
          rfl
      | cons u rest ih =>
          intro h
          rw [parseMemoryAux_skip x u rest (h u (List.mem_cons_self u rest))]
          exact ih (fun u' hu' => h u' (List.mem_cons_of_mem u hu'))
    exact hall memoryUnits hnone

/-- Witness for C6 at concrete inputs `"500m"`, `"1.5"`, `"8Gi"`
and `"123"`. -/
theorem quantity_normalization_witness :
    ResourceAmount.parse_cpu "500m" = some ⟨500, "500m"⟩ ∧
    ResourceAmount.parse_cpu "1.5" = some ⟨(3 / 2 : ℚ) * 1000, "1.5"⟩ ∧
    ResourceAmount.parse_memory "8Gi" = some ⟨8 * 1024 ^ 3, "8Gi"⟩ ∧
    ResourceAmount.parse_memory "123" = some ⟨123, "123"⟩ := by
  refine ⟨?_, ?_, ?_, ?_⟩
  · exact quantity_normalization.1 "500".data 500 (by decide)
  · exact quantity_normalization.2.1 "1.5" (3 / 2) (by decide) (by decide)
  · have h := quantity_normalization.2.2.1 ("Gi", 1024 ^ 3) (by decide) "8".data 8 (by decide)
    have h2 : (8 : ℚ) * 1024 ^ 3 = 8589934592 := by decide
    simpa [h2] using h
  · exact quantity_normalization.2.2.2 "123" 123 (by decide) (by decide)

/-- Counterexample for C3 as stated: the CPU string `"250.5m"` parses
to 250.5 millicores, formats to `"250m"` (integer truncation), and
reparsing yields 250, a different scalar — the parse→format→parse
round-trip does not preserve the scalar for every valid CPU string. -/
theorem cpu_roundtrip_counterexample :
    (ResourceAmount.parse_cpu "250.5m").map ResourceAmount.value = some (501 / 2) ∧
    (ResourceAmount.parse_cpu "250.5m").map ResourceAmount.format_cpu = some "250m" ∧
    (ResourceAmount.parse_cpu "250m").map ResourceAmount.value = some 250 ∧
    ((250 : ℚ) ≠ 501 / 2) := by
  refine ⟨by decide, by decide, by decide, by decide⟩

/-- C3 (amended): the parse→format→parse round-trip preserves the
scalar value for every valid CPU string whose parsed value is a
nonnegative whole number of millicores below 1000 (non-integral
values are truncated by `int(...)` and values of 1000 millicores or
more are reformatted with only two decimals of cores, so the general
claim fails, see the counterexample). -/
theorem cpu_roundtrip_amended (x : String) (r : ResourceAmount)
    (hx : ResourceAmount.parse_cpu x = some r) (h0 : 0 ≤ r.value)
    (hint : r.value.den = 1) (hlt : r.value < 1000) :
    (ResourceAmount.parse_cpu r.format_cpu).map ResourceAmount.value = some r.value := by
  have hfmt : r.format_cpu = intToDecString (truncQ r.value) ++ "m" := by
    unfold ResourceAmount.format_cpu
    rw [if_pos hlt]
  have hq : (r.value.num : ℚ) = r.value := Rat.coe_int_num_of_den_eq_one hint
  have hnum0 : 0 ≤ r.value.num := Rat.num_nonneg.mpr h0
  have htr : truncQ r.value = r.value.num := by
    unfold truncQ
    rw [if_pos h0]
    conv_lhs => rw [← hq]
    rw [Int.floor_intCast]
  have hint2 : intToDecString (truncQ r.value) = natToDecString r.value.num.toNat := by
    rw [htr]
    unfold intToDecString
    rw [if_neg (by omega : ¬r.value.num < 0)]
    congr 1
    omega
  rw [hfmt, hint2]
  have hdata : (natToDecString r.value.num.toNat ++ "m").data =
      (natToDecString r.value.num.toNat).data ++ ['m'] := by
    simp
  unfold ResourceAmount.parse_cpu
  rw [hdata, List.getLast?_concat, if_pos rfl, List.dropLast_concat, string_eta,
    parseDecimal_natToDecString]
  simp only [Option.map_some']
  congr 1
  rw [show ((r.value.num.toNat : ℚ)) = (((r.value.num.toNat : ℤ)) : ℚ) from
      (Int.cast_natCast _).symm,
    Int.toNat_of_nonneg hnum0, hq]

/-- Witness for the amended C3 at the concrete CPU string `"250m"`. -/
theorem cpu_roundtrip_witness :
    (ResourceAmount.parse_cpu (ResourceAmount.format_cpu ⟨250, "250m"⟩)).map
      ResourceAmount.value = some 250 :=
  cpu_roundtrip_amended "250m" ⟨250, "250m"⟩ (by decide) (by decide) (by decide) (by decide)

/-! ## Claim support lemmas: the differ's classification -/

theorem lookupAssoc_eq_none_iff (l : List (String × Val)) (a : String) :
    lookupAssoc a l = none ↔ a ∉ l.map Prod.fst := by
  induction l with
  | nil => simp
  | cons p rest ih =>
      obtain ⟨k, v⟩ := p
      by_cases h : k = a
      · subst h
        simp
      · have h' : ¬a = k := fun he => h he.symm
        simp [h, h', ih]

theorem filter_key_absent (l : List (String × Val)) (a : String)
    (h : a ∉ l.map Prod.fst) (pred : String × Val → Bool) :
    l.filter (fun p => p.1 == a && pred p) = [] := by
  induction l with
  | nil => rfl
  | cons p rest ih =>
      obtain ⟨k, v⟩ := p
      simp only [List.map_cons, List.mem_cons, not_or] at h
      have hk : (k == a) = false := by
        simp only [beq_eq_false_iff_ne, ne_eq]
        exact fun he => h.1 he.symm
      rw [List.filter_cons]
      simp only [hk, Bool.false_and, if_neg Bool.false_ne_true]
      exact ih h.2

theorem filter_key (l : List (String × Val)) (a : String) (v : Val)
    (hn : (l.map Prod.fst).Nodup) (hl : lookupAssoc a l = some v)
    (pred : String × Val → Bool) :
    l.filter (fun p => p.1 == a && pred p) =
      if pred (a, v) then [(a, v)] else [] := by
  induction l with
  | nil => simp at hl
  | cons p rest ih =>
      obtain ⟨k, v'⟩ := p
      simp only [List.map_cons, List.nodup_cons] at hn
      by_cases h : k = a
      · subst h
        rw [lookupAssoc_cons, if_pos rfl] at hl
        injection hl with hl
        subst hl
        have hrest : rest.filter (fun p => p.1 == k && pred p) = [] :=
          filter_key_absent rest k hn.1 pred
        rw [List.filter_cons]
        by_cases hp : pred (k, v') = true
        · simp [hp, hrest]
        · simp only [Bool.not_eq_true] at hp
          simp [hp, hrest]
      · have hk : (k == a) = false := by
          simp only [beq_eq_false_iff_ne, ne_eq]
          exact h
        rw [List.filter_cons]
        simp only [hk, Bool.false_and, if_neg Bool.false_ne_true]
        rw [lookupAssoc_cons, if_neg h] at hl
        exact ih hn.2 hl

theorem filterMap_filter {α β : Type} (g : α → Option β) (q : β → Bool) :
    ∀ l : List α, (l.filterMap g).filter q =
      l.filterMap (fun x => match g x with
        | some y => if q y then some y else none
        | none => none) := by
  intro l
  induction l with
  | nil => rfl
  | cons x xs ih =>
      cases hg : g x with
      | none => simp [List.filterMap_cons, hg, ih]
      | some y =>
          by_cases hq : q y = true
          · simp [List.filterMap_cons, hg, List.filter_cons, hq, ih]
          · simp only [Bool.not_eq_true] at hq
            simp [List.filterMap_cons, hg, List.filter_cons, hq, ih]

theorem filterMap_none {α β : Type} (g : α → Option β) :
    ∀ l : List α, (∀ x ∈ l, g x = none) → l.filterMap g = []
  | [], _ => rfl
  | x :: xs, h => by
      rw [List.filterMap_cons, h x (List.mem_cons_self x xs)]
      exact filterMap_none g xs (fun x' hx' => h x' (List.mem_cons_of_mem x hx'))

theorem filterMap_key (l : List (String × Val)) (a : String)
    (hn : (l.map Prod.fst).Nodup) (G : Val → Option ChangeRecord) :
    l.filterMap (fun p => if p.1 == a then G p.2 else none) =
      match lookupAssoc a l with
      | some v => (G v).toList
      | none => [] := by
  induction l with
  | nil => rfl
  | cons p rest ih =>
      obtain ⟨k, v⟩ := p
      simp only [List.map_cons, List.nodup_cons] at hn
      by_cases h : k = a
      · subst h
        have hnone : ∀ p ∈ rest, (if p.1 == k then G p.2 else none) =
            (none : Option ChangeRecord) := by
          intro p hp
          have hf : (p.1 == k) = false := by
            simp only [beq_eq_false_iff_ne, ne_eq]
            intro he
            exact hn.1 (he ▸ List.mem_map_of_mem Prod.fst hp)
          simp [hf]
        have habs : rest.filterMap (fun p => if p.1 == k then G p.2 else none) = [] :=
          filterMap_none _ rest hnone
        have hif : (if ((k, v).1 == k) = true then G (k, v).2 else none) = G v := by simp
        have hlk : lookupAssoc k ((k, v) :: rest) = some v := by simp
        rw [List.filterMap_cons, hif, hlk]
        cases hG : G v with
        | none =>
            show List.filterMap (fun p => if (p.1 == k) = true then G p.2 else none) rest =
              (G v).toList
            rw [habs, hG]
            rfl
        | some c =>
            show c :: List.filterMap (fun p => if (p.1 == k) = true then G p.2 else none) rest =
              (G v).toList
            rw [habs, hG]
            rfl
      · have hk : (k == a) = false := by
          simp only [beq_eq_false_iff_ne, ne_eq]
          exact h
        rw [List.filterMap_cons]
        simp only [hk, if_neg Bool.false_ne_true, lookupAssoc_cons, h, if_false]
        exact ih hn.2

/-- C2: for every pair of app-id → manifest states with distinct keys,
`get_changes` produces exactly one `create` record (no before-state)
for an id only in the desired state, exactly one `delete` record (no
after-state) for an id only in the current state, exactly one `update`
record for an id in both whose normalized manifests compare unequal,
and no record at all for an id in both whose normalized manifests
compare equal; the comparison is deep and insensitive to dict key
order. -/
theorem differ_classification (current desired : List (String × Val))
    (hc : (current.map Prod.fst).Nodup) (hd : (desired.map Prod.fst).Nodup) :
    (∀ a v, lookupAssoc a desired = some v → lookupAssoc a current = none →
      (get_changes current desired).filter (fun c => c.app == a) =
        [⟨"create", a, none, some v⟩]) ∧
    (∀ a v, lookupAssoc a current = some v → lookupAssoc a desired = none →
      (get_changes current desired).filter (fun c => c.app == a) =
        [⟨"delete", a, some v, none⟩]) ∧
    (∀ a c d, lookupAssoc a current = some c → lookupAssoc a desired = some d →
      pyEq (normalize_manifest c) (normalize_manifest d) = true →
      (get_changes current desired).filter (fun ch => ch.app == a) = []) ∧
    (∀ a c d, lookupAssoc a current = some c → lookupAssoc a desired = some d →
      pyEq (normalize_manifest c) (normalize_manifest d) = false →
      (get_changes current desired).filter (fun ch => ch.app == a) =
        [⟨"update", a, some c, some d⟩]) ∧
    (∀ l₁ l₂ : List (String × Val), l₁.Perm l₂ → (Val.mkMap l₁).wf = true →
      pyEq (Val.mkMap l₁) (Val.mkMap l₂) = true) := by
  have hcreates : ∀ a : String,
      ((desired.filter (fun p => (lookupAssoc p.1 current).isNone)).map
        (fun p => (⟨"create", p.1, none, some p.2⟩ : ChangeRecord))).filter
          (fun c => c.app == a) =
        (match lookupAssoc a desired with
         | some v =>
             if (lookupAssoc a current).isNone then
               [(⟨"create", a, none, some v⟩ : ChangeRecord)]
             else []
         | none => []) := by
    intro a
    rw [List.filter_map, List.filter_filter]
    show ((desired.filter (fun p => p.1 == a && (lookupAssoc p.1 current).isNone)).map
        (fun p => (⟨"create", p.1, none, some p.2⟩ : ChangeRecord))) = _
    cases hld : lookupAssoc a desired with
    | none =>
        rw [filter_key_absent desired a ((lookupAssoc_eq_none_iff desired a).mp hld)]
        rfl
    | some v =>
        rw [filter_key desired a v hd hld (fun p => (lookupAssoc p.1 current).isNone)]
        by_cases hlc : (lookupAssoc a current).isNone = true
        · simp [hlc]
        · simp only [Bool.not_eq_true] at hlc
          simp [hlc]
  have hdeletes : ∀ a : String,
      ((current.filter (fun p => (lookupAssoc p.1 desired).isNone)).map
        (fun p => (⟨"delete", p.1, some p.2, none⟩ : ChangeRecord))).filter
          (fun c => c.app == a) =
        (match lookupAssoc a current with
         | some v =>
             if (lookupAssoc a desired).isNone then
               [(⟨"delete", a, some v, none⟩ : ChangeRecord)]
             else []
         | none => []) := by
    intro a
    rw [List.filter_map, List.filter_filter]
    show ((current.filter (fun p => p.1 == a && (lookupAssoc p.1 desired).isNone)).map
        (fun p => (⟨"delete", p.1, some p.2, none⟩ : ChangeRecord))) = _
    cases hlc : lookupAssoc a current with
    | none =>
        rw [filter_key_absent current a ((lookupAssoc_eq_none_iff current a).mp hlc)]
        rfl
    | some v =>
        rw [filter_key current a v hc hlc (fun p => (lookupAssoc p.1 desired).isNone)]
        by_cases hld : (lookupAssoc a desired).isNone = true
        · simp [hld]
        · simp only [Bool.not_eq_true] at hld
          simp [hld]
  have hupdates : ∀ a : String,
      (desired.filterMap (fun p =>
        match lookupAssoc p.1 current with
        | some cur =>
            if pyEq (normalize_manifest cur) (normalize_manifest p.2) then none
            else some (⟨"update", p.1, some cur, some p.2⟩ : ChangeRecord)
        | none => none)).filter (fun c => c.app == a) =
        (match lookupAssoc a desired with
         | some d =>
             (match lookupAssoc a current with
              | some c =>
                  if pyEq (normalize_manifest c) (normalize_manifest d) then []
                  else [(⟨"update", a, some c, some d⟩ : ChangeRecord)]
              | none => [])
         | none => []) := by
    intro a
    rw [filterMap_filter]
    have htail : desired.filterMap (fun p : String × Val => if p.1 == a then
          (fun v => match lookupAssoc a current with
            | some c =>
                if pyEq (normalize_manifest c) (normalize_manifest v) then none
                else some (⟨"update", a, some c, some v⟩ : ChangeRecord)
            | none => none) p.2 else none) =
        (match lookupAssoc a desired with
         | some d =>
             (match lookupAssoc a current with
              | some c =>
                  if pyEq (normalize_manifest c) (normalize_manifest d) then []
                  else [(⟨"update", a, some c, some d⟩ : ChangeRecord)]
              | none => [])
         | none => []) := by
      refine (filterMap_key desired a hd (fun v => match lookupAssoc a current with
        | some c =>
            if pyEq (normalize_manifest c) (normalize_manifest v) then none
            else some (⟨"update", a, some c, some v⟩ : ChangeRecord)
        | none => none)).trans ?_
      cases hld : lookupAssoc a desired with
      | none => rfl
      | some d =>
          cases hlc : lookupAssoc a current with
          | none => rfl
          | some c =>
              by_cases he : pyEq (normalize_manifest c) (normalize_manifest d) = true
              · simp [he]
              · simp only [Bool.not_eq_true] at he
                simp [he]
    refine Eq.trans (List.filterMap_congr ?_) htail
    intro p _
    obtain ⟨k, v⟩ := p
    by_cases hk : k = a
    · subst hk
      cases hlc : lookupAssoc k current with
      | none => simp [hlc]
      | some c =>
          by_cases he : pyEq (normalize_manifest c) (normalize_manifest v) = true
          · simp [hlc, he]
          · simp only [Bool.not_eq_true] at he
            simp [hlc, he]
    · have hkf : (k == a) = false := by
        simp only [beq_eq_false_iff_ne, ne_eq]
        exact hk
      cases hlc : lookupAssoc k current with
      | none => simp [hlc, hkf]
      | some c =>
          by_cases he : pyEq (normalize_manifest c) (normalize_manifest v) = true
          · simp [hlc, he, hkf]
          · simp only [Bool.not_eq_true] at he
            simp [hlc, he, hkf]
  have hsplit : ∀ a : String,
      (get_changes current desired).filter (fun c => c.app == a) =
        (match lookupAssoc a desired with
         | some v =>
             if (lookupAssoc a current).isNone then
               [(⟨"create", a, none, some v⟩ : ChangeRecord)]
             else []
         | none => []) ++
        (match lookupAssoc a current with
         | some v =>
             if (lookupAssoc a desired).isNone then
               [(⟨"delete", a, some v, none⟩ : ChangeRecord)]
             else []
         | none => []) ++
        (match lookupAssoc a desired with
         | some d =>
             (match lookupAssoc a current with
              | some c =>
                  if pyEq (normalize_manifest c) (normalize_manifest d) then []
                  else [(⟨"update", a, some c, some d⟩ : ChangeRecord)]
              | none => [])
         | none => []) := by
    intro a
    unfold get_changes
    rw [List.filter_append, List.filter_append, hcreates a, hdeletes a, hupdates a]
  refine ⟨?_, ?_, ?_, ?_, fun l₁ l₂ hp hwf => pyEq_mkMap_perm l₁ l₂ hp hwf⟩
  · intro a v hld hlc
    rw [hsplit a, hld, hlc]
    rfl
  · intro a v hlc hld
    rw [hsplit a, hld, hlc]
    rfl
  · intro a c d hlc hld he
    rw [hsplit a, hld, hlc]
    simp [he]
  · intro a c d hlc hld he
    rw [hsplit a, hld, hlc]
    simp [he]

/-- Witness for C2 at concrete states: current has apps old, same, mod;
desired has same (with inner dict keys reordered), mod (changed) and new. -/
theorem differ_classification_witness :
    (get_changes
        [("old", Val.int 1), ("same", Val.mkMap [("x", Val.int 1), ("y", Val.int 2)]),
          ("mod", Val.int 1)]
        [("same", Val.mkMap [("y", Val.int 2), ("x", Val.int 1)]), ("mod", Val.int 2),
          ("new", Val.null)]).filter (fun c => c.app == "new") =
      [⟨"create", "new", none, some Val.null⟩] ∧
    (get_changes
        [("old", Val.int 1), ("same", Val.mkMap [("x", Val.int 1), ("y", Val.int 2)]),
          ("mod", Val.int 1)]
        [("same", Val.mkMap [("y", Val.int 2), ("x", Val.int 1)]), ("mod", Val.int 2),
          ("new", Val.null)]).filter (fun c => c.app == "old") =
      [⟨"delete", "old", some (Val.int 1), none⟩] ∧
    (get_changes
        [("old", Val.int 1), ("same", Val.mkMap [("x", Val.int 1), ("y", Val.int 2)]),
          ("mod", Val.int 1)]
        [("same", Val.mkMap [("y", Val.int 2), ("x", Val.int 1)]), ("mod", Val.int 2),
          ("new", Val.null)]).filter (fun c => c.app == "same") = [] ∧
    (get_changes
        [("old", Val.int 1), ("same", Val.mkMap [("x", Val.int 1), ("y", Val.int 2)]),
          ("mod", Val.int 1)]
        [("same", Val.mkMap [("y", Val.int 2), ("x", Val.int 1)]), ("mod", Val.int 2),
          ("new", Val.null)]).filter (fun c => c.app == "mod") =
      [⟨"update", "mod", some (Val.int 1), some (Val.int 2)⟩] := by
  have h := differ_classification
    [("old", Val.int 1), ("same", Val.mkMap [("x", Val.int 1), ("y", Val.int 2)]),
      ("mod", Val.int 1)]
    [("same", Val.mkMap [("y", Val.int 2), ("x", Val.int 1)]), ("mod", Val.int 2),
      ("new", Val.null)]
    (by decide) (by decide)
  exact ⟨h.1 "new" Val.null (by decide) (by decide),
    h.2.1 "old" (Val.int 1) (by decide) (by decide),
    h.2.2.1 "same" (Val.mkMap [("x", Val.int 1), ("y", Val.int 2)])
      (Val.mkMap [("y", Val.int 2), ("x", Val.int 1)]) (by decide) (by decide) (by decide),
    h.2.2.2.1 "mod" (Val.int 1) (Val.int 2) (by decide) (by decide) (by decide)⟩

/-- C5: deep merge is right-biased on non-map conflicts and recurses when
both values are maps: looking up any key in `deep_merge t s` gives the
recursive merge when both sides hold maps, the source's value on any other
key the source holds, and the target's value otherwise; concretely
`merge {a:1, b:{c:1}} {b:{c:2}} = {a:1, b:{c:2}}`; and merging the same
source a second time leaves the result unchanged. -/
theorem deep_merge_semantics :
    (∀ (t s : ValMap), s.keys.Nodup → ∀ k : String,
      (deep_merge t s).find? k =
        match t.find? k, s.find? k with
        | some (.map tm), some (.map sm) => some (.map (deep_merge tm sm))
        | _, some v => some v
        | o, none => o) ∧
    deep_merge
        (ValMap.ofList [("a", Val.int 1), ("b", Val.mkMap [("c", Val.int 1)])])
        (ValMap.ofList [("b", Val.mkMap [("c", Val.int 2)])]) =
      ValMap.ofList [("a", Val.int 1), ("b", Val.mkMap [("c", Val.int 2)])] ∧
    (∀ (t s : ValMap), t.wf = true → s.wf = true →
      deep_merge (deep_merge t s) s = deep_merge t s) :=
  ⟨fun t s hs k => find?_deep_merge t s hs k, by decide,
    fun t s ht hs => deep_merge_idem t s ht hs⟩

/-- Witness for C5: the source wins the key `x`, and re-merging a concrete
source into an already-merged result changes nothing. -/
theorem deep_merge_semantics_witness :
    (deep_merge (ValMap.ofList [("x", Val.int 1)])
        (ValMap.ofList [("x", Val.int 2)])).find? "x" = some (Val.int 2) ∧
    deep_merge
        (deep_merge (ValMap.ofList [("a", Val.int 1)])
          (ValMap.ofList [("b", Val.str "s")]))
        (ValMap.ofList [("b", Val.str "s")]) =
      deep_merge (ValMap.ofList [("a", Val.int 1)])
        (ValMap.ofList [("b", Val.str "s")]) := by
  refine ⟨?_, deep_merge_semantics.2.2 (ValMap.ofList [("a", Val.int 1)])
    (ValMap.ofList [("b", Val.str "s")]) (by decide) (by decide)⟩
  have h := deep_merge_semantics.1 (ValMap.ofList [("x", Val.int 1)])
    (ValMap.ofList [("x", Val.int 2)]) (by decide) "x"
  exact h.trans (by decide)

theorem natDigitsRev_ne_nil (n : ℕ) : natDigitsRev n ≠ [] := by
  unfold natDigitsRev natDigitsAux
  by_cases h : n < 10 <;> simp [h]

theorem natToDecString_ne_empty (n : ℕ) : natToDecString n ≠ "" := by
  unfold natToDecString
  intro h
  have hdata : ((natDigitsRev n).reverse.map digitChar) = [] := congrArg String.data h
  simp only [List.map_eq_nil, List.reverse_eq_nil_iff] at hdata
  exact natDigitsRev_ne_nil n hdata

theorem intToDecString_ne_empty (i : Int) : intToDecString i ≠ "" := by
  unfold intToDecString
  by_cases h : i < 0
  · rw [if_pos h]
    intro he
    have : ("-" ++ natToDecString i.natAbs).data = [] := congrArg String.data he
    simp at this
  · rw [if_neg h]
    exact natToDecString_ne_empty _

theorem pyStr_ne_empty_of_truthy (v : Val) (h : pyTruthy v = true) : pyStr v ≠ "" := by
  cases v with
  | str s =>
      simp only [pyTruthy, Bool.not_eq_true', beq_eq_false_iff_ne, ne_eq] at h
      exact h
  | int n => exact intToDecString_ne_empty n
  | bool b =>
      cases b with
      | false => cases h
      | true => decide
  | null => cases h
  | list xs => simp [pyStr]
  | map xs => simp [pyStr]

/-- C9: nested extraction from a values tree is null-safe: descending
into a non-dict, a missing key, or a stored `None` yields `none`; the
image extraction returns the sentinel `"unknown"` whenever the path is
absent or malformed and otherwise a nonempty `repository:tag` string;
the resources extraction returns the empty dict whenever the path is
absent or malformed. -/
theorem nested_extraction_safety :
    (∀ (k : String) (ks : List String) (v : Val), (∀ m : ValMap, v ≠ Val.map m) →
      get_nested v (k :: ks) = none) ∧
    (∀ (k : String) (ks : List String) (m : ValMap), m.find? k = none →
      get_nested (Val.map m) (k :: ks) = none) ∧
    (∀ (k : String) (ks : List String) (m : ValMap), m.find? k = some Val.null →
      get_nested (Val.map m) (k :: ks) = none) ∧
    (∀ values : Val, get_nested values imagePath = none →
      get_image_from_values values = "unknown") ∧
    (∀ (values v : Val), get_nested values imagePath = some v →
      (∀ m : ValMap, v ≠ Val.map m) → get_image_from_values values = "unknown") ∧
    (∀ values : Val, get_nested values containerPath = none →
      get_resources_from_values values = ValMap.nil) ∧
    (∀ (values v : Val), get_nested values containerPath = some v →
      (∀ m : ValMap, v ≠ Val.map m) → get_resources_from_values values = ValMap.nil) ∧
    (∀ values : Val, get_image_from_values values = "unknown" ∨
      ∃ r t : String, r ≠ "" ∧ get_image_from_values values = r ++ ":" ++ t) := by
  refine ⟨?_, ?_, ?_, ?_, ?_, ?_, ?_, ?_⟩
  · intro k ks v hv
    cases v with
    | map m => exact absurd rfl (hv m)
    | str s => rfl
    | int n => rfl
    | bool b => rfl
    | null => rfl
    | list xs => rfl
  · intro k ks m h
    simp [get_nested, h]
  · intro k ks m h
    simp [get_nested, h]
  · intro values h
    simp [get_image_from_values, h]
  · intro values v hv hm
    cases v with
    | map m => exact absurd rfl (hm m)
    | str s => simp [get_image_from_values, hv]
    | int n => simp [get_image_from_values, hv]
    | bool b => simp [get_image_from_values, hv]
    | null => simp [get_image_from_values, hv]
    | list xs => simp [get_image_from_values, hv]
  · intro values h
    simp [get_resources_from_values, h]
  · intro values v hv hm
    cases v with
    | map m => exact absurd rfl (hm m)
    | str s => simp [get_resources_from_values, hv]
    | int n => simp [get_resources_from_values, hv]
    | bool b => simp [get_resources_from_values, hv]
    | null => simp [get_resources_from_values, hv]
    | list xs => simp [get_resources_from_values, hv]
  · intro values
    cases hp : get_nested values imagePath with
    | none => exact Or.inl (by simp [get_image_from_values, hp])
    | some v =>
        cases v with
        | map image_config =>
            by_cases hr : pyTruthy (dictGet image_config "repository" (.str "")) = true
            · refine Or.inr ⟨pyStr (dictGet image_config "repository" (.str "")),
                pyStr (if pyTruthy (dictGet image_config "tag" (.str "latest")) then
                  dictGet image_config "tag" (.str "latest") else Val.str "latest"),
                pyStr_ne_empty_of_truthy _ hr, ?_⟩
              simp [get_image_from_values, hp, hr]
            · simp only [Bool.not_eq_true] at hr
              refine Or.inl ?_
              simp only [get_image_from_values, hp, hr]
              simp [pyTruthy]
        | str s => exact Or.inl (by simp [get_image_from_values, hp])
        | int n => exact Or.inl (by simp [get_image_from_values, hp])
        | bool b => exact Or.inl (by simp [get_image_from_values, hp])
        | null => exact Or.inl (by simp [get_image_from_values, hp])
        | list xs => exact Or.inl (by simp [get_image_from_values, hp])

/-- Witness for C9 at concrete trees: a non-dict node, a missing key, a
stored `None`, malformed image and resources paths, and the disjunction
at a tree without an image path. -/
theorem nested_extraction_safety_witness :
    get_nested (Val.int 3) ["a"] = none ∧
    get_nested (Val.mkMap [("a", Val.int 1)]) ["b"] = none ∧
    get_nested (Val.mkMap [("a", Val.null)]) ["a"] = none ∧
    get_image_from_values Val.null = "unknown" ∧
    get_image_from_values (Val.mkMap [("controllers", Val.mkMap [("main",
      Val.mkMap [("containers", Val.mkMap [("main", Val.mkMap [("image",
      Val.int 7)])])])])]) = "unknown" ∧
    get_resources_from_values Val.null = ValMap.nil ∧
    get_resources_from_values (Val.mkMap [("controllers", Val.mkMap [("main",
      Val.mkMap [("containers", Val.mkMap [("main", Val.str "x")])])])]) = ValMap.nil ∧
    (get_image_from_values (Val.mkMap [("x", Val.int 1)]) = "unknown" ∨
      ∃ r t : String, r ≠ "" ∧
        get_image_from_values (Val.mkMap [("x", Val.int 1)]) = r ++ ":" ++ t) :=
  ⟨nested_extraction_safety.1 "a" [] (Val.int 3) (fun m h => Val.noConfusion h),
    nested_extraction_safety.2.1 "b" [] (ValMap.ofList [("a", Val.int 1)]) (by decide),
    nested_extraction_safety.2.2.1 "a" [] (ValMap.ofList [("a", Val.null)]) (by decide),
    nested_extraction_safety.2.2.2.1 Val.null (by decide),
    nested_extraction_safety.2.2.2.2.1 _ (Val.int 7) (by decide)
      (fun m h => Val.noConfusion h),
    nested_extraction_safety.2.2.2.2.2.1 Val.null (by decide),
    nested_extraction_safety.2.2.2.2.2.2.1 _ (Val.str "x") (by decide)
      (fun m h => Val.noConfusion h),
    nested_extraction_safety.2.2.2.2.2.2.2 (Val.mkMap [("x", Val.int 1)])⟩

/-- C7: node-group capacity resolution follows the three-tier
precedence: a non-empty entry under the app-level `nodes` mapping wins
and makes the platform table irrelevant, with `cores` accepted as an
alias for `cpu` and `mem` for `memory`; an absent or empty entry falls
through to the platform `nodeSelectors` capacity table; and an id the
platform table does not cover (or covers with an empty capacity dict)
gets the hard-coded default of 4000m CPU, 8Gi memory and one node. -/
theorem node_capacity_precedence :
    (∀ (nodeSels nodeSels' : List (String × NodeSelCfg)) (sel : String)
        (ac : AppsConfig) (cfg : ValMap),
      lookupTable sel ac.nodes = some cfg → cfg ≠ ValMap.nil →
      get_node_capacity nodeSels sel ac = get_node_capacity nodeSels' sel ac) ∧
    (∀ (nodeSels : List (String × NodeSelCfg)) (sel : String)
        (apps : List (String × AppCfg)) (cl : ClusterCfg) (v : Val),
      get_node_capacity nodeSels sel ⟨apps, cl, [(sel, ValMap.ofList [("cores", v)])]⟩ =
        get_node_capacity nodeSels sel ⟨apps, cl, [(sel, ValMap.ofList [("cpu", v)])]⟩) ∧
    (∀ (nodeSels : List (String × NodeSelCfg)) (sel : String)
        (apps : List (String × AppCfg)) (cl : ClusterCfg) (v : Val),
      get_node_capacity nodeSels sel ⟨apps, cl, [(sel, ValMap.ofList [("mem", v)])]⟩ =
        get_node_capacity nodeSels sel ⟨apps, cl, [(sel, ValMap.ofList [("memory", v)])]⟩) ∧
    (∀ (nodeSels : List (String × NodeSelCfg)) (sel : String) (ac : AppsConfig),
      (lookupTable sel ac.nodes = none ∨ lookupTable sel ac.nodes = some ValMap.nil) →
      get_node_capacity nodeSels sel ac = get_node_capacity_platform nodeSels sel) ∧
    (∀ (nodeSels : List (String × NodeSelCfg)) (sel : String),
      (lookupTable sel nodeSels = none ∨
        (lookupTable sel nodeSels).map NodeSelCfg.capacity = some ValMap.nil) →
      get_node_capacity_platform nodeSels sel =
        some ⟨⟨4000, "4000m"⟩, ⟨8589934592, "8Gi"⟩, sel, 1, none⟩) := by
  refine ⟨?_, ?_, ?_, ?_, ?_⟩
  · intro nodeSels nodeSels' sel ac cfg h hne
    unfold get_node_capacity
    rw [h]
    have hbe : (cfg == ValMap.nil) = false := beq_eq_false_iff_ne.mpr hne
    simp only [Option.getD_some, hbe, Bool.false_eq_true, if_false]
  · intro nodeSels sel apps cl v
    have h1 : lookupTable sel [(sel, ValMap.ofList [("cores", v)])] =
        some (ValMap.ofList [("cores", v)]) := by simp
    have h2 : lookupTable sel [(sel, ValMap.ofList [("cpu", v)])] =
        some (ValMap.ofList [("cpu", v)]) := by simp
    unfold get_node_capacity
    rw [h1, h2]
    rfl
  · intro nodeSels sel apps cl v
    have h1 : lookupTable sel [(sel, ValMap.ofList [("mem", v)])] =
        some (ValMap.ofList [("mem", v)]) := by simp
    have h2 : lookupTable sel [(sel, ValMap.ofList [("memory", v)])] =
        some (ValMap.ofList [("memory", v)]) := by simp
    unfold get_node_capacity
    rw [h1, h2]
    rfl
  · intro nodeSels sel ac h
    unfold get_node_capacity
    rcases h with h | h <;> rw [h] <;> rfl
  · intro nodeSels sel h
    unfold get_node_capacity_platform
    rcases h with h | h
    · rw [h]
      rfl
    · rw [h]
      rfl

/-- Witness for C7: a concrete `nodes` entry shadows a conflicting
platform table, `cores`/`mem` behave as `cpu`/`memory`, an absent entry
falls through to the platform table, and an uncovered id gets the
hard-coded default. -/
theorem node_capacity_precedence_witness :
    get_node_capacity [("pi", ⟨ValMap.ofList [("cpu", Val.str "2000m")], ValMap.nil⟩)] "pi"
        ⟨[], ⟨none, none, none⟩, [("pi", ValMap.ofList [("cpu", Val.str "8")])]⟩ =
      get_node_capacity [] "pi"
        ⟨[], ⟨none, none, none⟩, [("pi", ValMap.ofList [("cpu", Val.str "8")])]⟩ ∧
    get_node_capacity [] "pi"
        ⟨[], ⟨none, none, none⟩, [("pi", ValMap.ofList [("cores", Val.int 4)])]⟩ =
      get_node_capacity [] "pi"
        ⟨[], ⟨none, none, none⟩, [("pi", ValMap.ofList [("cpu", Val.int 4)])]⟩ ∧
    get_node_capacity [] "nas"
        ⟨[], ⟨none, none, none⟩, [("nas", ValMap.ofList [("mem", Val.str "4Gi")])]⟩ =
      get_node_capacity [] "nas"
        ⟨[], ⟨none, none, none⟩, [("nas", ValMap.ofList [("memory", Val.str "4Gi")])]⟩ ∧
    get_node_capacity [("pi", ⟨ValMap.ofList [("cpu", Val.str "2000m")], ValMap.nil⟩)] "pi"
        ⟨[], ⟨none, none, none⟩, []⟩ =
      get_node_capacity_platform
        [("pi", ⟨ValMap.ofList [("cpu", Val.str "2000m")], ValMap.nil⟩)] "pi" ∧
    get_node_capacity_platform [] "pi" =
      some ⟨⟨4000, "4000m"⟩, ⟨8589934592, "8Gi"⟩, "pi", 1, none⟩ :=
  ⟨node_capacity_precedence.1
      [("pi", ⟨ValMap.ofList [("cpu", Val.str "2000m")], ValMap.nil⟩)] [] "pi"
      ⟨[], ⟨none, none, none⟩, [("pi", ValMap.ofList [("cpu", Val.str "8")])]⟩
      (ValMap.ofList [("cpu", Val.str "8")]) (by decide) (by decide),
    node_capacity_precedence.2.1 [] "pi" [] ⟨none, none, none⟩ (Val.int 4),
    node_capacity_precedence.2.2.1 [] "nas" [] ⟨none, none, none⟩ (Val.str "4Gi"),
    node_capacity_precedence.2.2.2.1
      [("pi", ⟨ValMap.ofList [("cpu", Val.str "2000m")], ValMap.nil⟩)] "pi"
      ⟨[], ⟨none, none, none⟩, []⟩ (Or.inl (by decide)),
    node_capacity_precedence.2.2.2.2 [] "pi" (Or.inl (by decide))⟩

theorem dictGet_of_find?_none (d : ValMap) (k : String) (dflt : Val)
    (h : d.find? k = none) : dictGet d k dflt = dflt := by
  unfold dictGet
  rw [h]

theorem dictGet_of_find?_some (d : ValMap) (k : String) (v dflt : Val)
    (h : d.find? k = some v) : dictGet d k dflt = v := by
  unfold dictGet
  rw [h]

/-- The override branch of `get_node_capacity` spelled out: with a
non-empty `nodes` entry the result is built from that entry alone. -/
theorem get_node_capacity_override (nodeSels : List (String × NodeSelCfg)) (sel : String)
    (ac : AppsConfig) (cfg : ValMap) (hl : lookupTable sel ac.nodes = some cfg)
    (hne : cfg ≠ ValMap.nil) :
    get_node_capacity nodeSels sel ac =
      (pyToInt (dictGet cfg "count" (.int 1))).bind (fun count =>
        (if dictGet cfg "cpu" (dictGet cfg "cores" .null) == Val.null then
            ResourceAmount.parse_cpu "4000m"
          else
            ResourceAmount.parse_cpu
              (pyStr (dictGet cfg "cpu" (dictGet cfg "cores" .null)))).bind (fun cpu =>
          (if dictGet cfg "memory" (dictGet cfg "mem" .null) == Val.null then
              ResourceAmount.parse_memory "8Gi"
            else
              ResourceAmount.parse_memory
                (pyStr (dictGet cfg "memory" (dictGet cfg "mem" .null)))).bind (fun memory =>
            (if dictGet cfg "disk" .null == Val.null then some none
              else (ResourceAmount.parse_memory (pyStr (dictGet cfg "disk" .null))).map
                some).bind (fun disk =>
              some ⟨cpu, memory, sel, count, disk⟩)))) := by
  unfold get_node_capacity
  rw [hl]
  have hbe : (cfg == ValMap.nil) = false := beq_eq_false_iff_ne.mpr hne
  simp only [Option.getD_some, hbe, Bool.false_eq_true, if_false]
  rcases Bool.eq_false_or_eq_true (dictGet cfg "cpu" (dictGet cfg "cores" Val.null) ==
    Val.null) with h1 | h1 <;>
  rcases Bool.eq_false_or_eq_true (dictGet cfg "memory" (dictGet cfg "mem" Val.null) ==
    Val.null) with h2 | h2 <;>
  rcases Bool.eq_false_or_eq_true (dictGet cfg "disk" Val.null == Val.null) with h3 | h3 <;>
  simp only [h1, h2, h3, Bool.false_eq_true, eq_self_iff_true, if_true, if_false] <;> rfl

theorem node_cap_do_proj (C : Option Int) (CP M : Option ResourceAmount)
    (D : Option (Option ResourceAmount)) (sel : String) (cap : NodeCapacity)
    (h : (C.bind (fun count => CP.bind (fun cpu => M.bind (fun memory => D.bind (fun disk =>
      some (⟨cpu, memory, sel, count, disk⟩ : NodeCapacity)))))) = some cap) :
    C = some cap.count ∧ CP = some cap.cpu ∧ M = some cap.memory ∧ D = some cap.disk := by
  cases C with
  | none => simp at h
  | some c =>
      simp only [Option.bind_eq_bind, Option.some_bind] at h
      cases CP with
      | none => simp at h
      | some p =>
          simp only [Option.some_bind] at h
          cases M with
          | none => simp at h
          | some m =>
              simp only [Option.some_bind] at h
              cases D with
              | none => simp at h
              | some d =>
                  simp only [Option.some_bind, Option.pure_def, Option.some.injEq] at h
                  subst h
                  exact ⟨rfl, rfl, rfl, rfl⟩

/-- C10: a non-empty `nodes` entry isolates capacity resolution from the
platform table entirely: the result is the same for any two platform
tables, each missing field of the entry is defaulted individually (cpu
4000m, memory 8Gi, count 1, disk absent), and only an id absent from
`nodes` or mapped to an empty entry falls through to the platform
table. -/
theorem nodes_override_isolation :
    (∀ (nodeSels nodeSels' : List (String × NodeSelCfg)) (sel : String)
        (ac : AppsConfig) (cfg : ValMap),
      lookupTable sel ac.nodes = some cfg → cfg ≠ ValMap.nil →
      get_node_capacity nodeSels sel ac = get_node_capacity nodeSels' sel ac) ∧
    (∀ (nodeSels : List (String × NodeSelCfg)) (sel : String) (ac : AppsConfig)
        (cfg : ValMap) (cap : NodeCapacity),
      lookupTable sel ac.nodes = some cfg → cfg ≠ ValMap.nil →
      get_node_capacity nodeSels sel ac = some cap →
      (cfg.find? "cpu" = none → cfg.find? "cores" = none → cap.cpu = ⟨4000, "4000m"⟩) ∧
      (cfg.find? "memory" = none → cfg.find? "mem" = none →
        cap.memory = ⟨8589934592, "8Gi"⟩) ∧
      (cfg.find? "count" = none → cap.count = 1) ∧
      (cfg.find? "disk" = none → cap.disk = none)) ∧
    (∀ (nodeSels : List (String × NodeSelCfg)) (sel : String) (ac : AppsConfig),
      (lookupTable sel ac.nodes = none ∨ lookupTable sel ac.nodes = some ValMap.nil) →
      get_node_capacity nodeSels sel ac = get_node_capacity_platform nodeSels sel) := by
  refine ⟨?_, ?_, ?_⟩
  · intro nodeSels nodeSels' sel ac cfg h hne
    unfold get_node_capacity
    rw [h]
    have hbe : (cfg == ValMap.nil) = false := beq_eq_false_iff_ne.mpr hne
    simp only [Option.getD_some, hbe, Bool.false_eq_true, if_false]
  · intro nodeSels sel ac cfg cap hl hne hres
    rw [get_node_capacity_override nodeSels sel ac cfg hl hne] at hres
    obtain ⟨hC, hCPU, hM, hD⟩ := node_cap_do_proj _ _ _ _ _ _ hres
    refine ⟨?_, ?_, ?_, ?_⟩
    · intro h1 h2
      rw [dictGet_of_find?_none cfg "cpu" _ h1,
        dictGet_of_find?_none cfg "cores" _ h2] at hCPU
      rw [if_pos (by decide : (Val.null == Val.null) = true)] at hCPU
      rw [(by decide : ResourceAmount.parse_cpu "4000m" =
        some (⟨4000, "4000m"⟩ : ResourceAmount))] at hCPU
      exact (Option.some.inj hCPU).symm
    · intro h1 h2
      rw [dictGet_of_find?_none cfg "memory" _ h1,
        dictGet_of_find?_none cfg "mem" _ h2] at hM
      rw [if_pos (by decide : (Val.null == Val.null) = true)] at hM
      rw [(by decide : ResourceAmount.parse_memory "8Gi" =
        some (⟨8589934592, "8Gi"⟩ : ResourceAmount))] at hM
      exact (Option.some.inj hM).symm
    · intro h1
      rw [dictGet_of_find?_none cfg "count" _ h1] at hC
      exact (Option.some.inj hC).symm
    · intro h1
      rw [dictGet_of_find?_none cfg "disk" _ h1] at hD
      rw [if_pos (by decide : (Val.null == Val.null) = true)] at hD
      exact (Option.some.inj hD).symm
  · intro nodeSels sel ac h
    unfold get_node_capacity
    rcases h with h | h <;> rw [h] <;> rfl

/-- Witness for C10: an override entry holding only an unrelated field
ignores a conflicting platform table and defaults every capacity field;
an empty entry falls through to the platform table. -/
theorem nodes_override_isolation_witness :
    get_node_capacity [("k3s", ⟨ValMap.ofList [("cpu", Val.str "16")], ValMap.nil⟩)] "k3s"
        ⟨[], ⟨none, none, none⟩, [("k3s", ValMap.ofList [("label", Val.str "x")])]⟩ =
      get_node_capacity [] "k3s"
        ⟨[], ⟨none, none, none⟩, [("k3s", ValMap.ofList [("label", Val.str "x")])]⟩ ∧
    (⟨⟨4000, "4000m"⟩, ⟨8589934592, "8Gi"⟩, "k3s", 1, none⟩ : NodeCapacity).cpu =
      ⟨4000, "4000m"⟩ ∧
    (⟨⟨4000, "4000m"⟩, ⟨8589934592, "8Gi"⟩, "k3s", 1, none⟩ : NodeCapacity).memory =
      ⟨8589934592, "8Gi"⟩ ∧
    (⟨⟨4000, "4000m"⟩, ⟨8589934592, "8Gi"⟩, "k3s", 1, none⟩ : NodeCapacity).count = 1 ∧
    (⟨⟨4000, "4000m"⟩, ⟨8589934592, "8Gi"⟩, "k3s", 1, none⟩ : NodeCapacity).disk = none ∧
    get_node_capacity [("k3s", ⟨ValMap.ofList [("cpu", Val.str "16")], ValMap.nil⟩)] "k3s"
        ⟨[], ⟨none, none, none⟩, [("k3s", ValMap.nil)]⟩ =
      get_node_capacity_platform
        [("k3s", ⟨ValMap.ofList [("cpu", Val.str "16")], ValMap.nil⟩)] "k3s" :=
  ⟨nodes_override_isolation.1
      [("k3s", ⟨ValMap.ofList [("cpu", Val.str "16")], ValMap.nil⟩)] [] "k3s"
      ⟨[], ⟨none, none, none⟩, [("k3s", ValMap.ofList [("label", Val.str "x")])]⟩
      (ValMap.ofList [("label", Val.str "x")]) (by decide) (by decide),
    (nodes_override_isolation.2.1 [] "k3s"
      ⟨[], ⟨none, none, none⟩, [("k3s", ValMap.ofList [("label", Val.str "x")])]⟩
      (ValMap.ofList [("label", Val.str "x")])
      ⟨⟨4000, "4000m"⟩, ⟨8589934592, "8Gi"⟩, "k3s", 1, none⟩
      (by decide) (by decide) (by decide)).1 (by decide) (by decide),
    (nodes_override_isolation.2.1 [] "k3s"
      ⟨[], ⟨none, none, none⟩, [("k3s", ValMap.ofList [("label", Val.str "x")])]⟩
      (ValMap.ofList [("label", Val.str "x")])
      ⟨⟨4000, "4000m"⟩, ⟨8589934592, "8Gi"⟩, "k3s", 1, none⟩
      (by decide) (by decide) (by decide)).2.1 (by decide) (by decide),
    (nodes_override_isolation.2.1 [] "k3s"
      ⟨[], ⟨none, none, none⟩, [("k3s", ValMap.ofList [("label", Val.str "x")])]⟩
      (ValMap.ofList [("label", Val.str "x")])
      ⟨⟨4000, "4000m"⟩, ⟨8589934592, "8Gi"⟩, "k3s", 1, none⟩
      (by decide) (by decide) (by decide)).2.2.1 (by decide),
    (nodes_override_isolation.2.1 [] "k3s"
      ⟨[], ⟨none, none, none⟩, [("k3s", ValMap.ofList [("label", Val.str "x")])]⟩
      (ValMap.ofList [("label", Val.str "x")])
      ⟨⟨4000, "4000m"⟩, ⟨8589934592, "8Gi"⟩, "k3s", 1, none⟩
      (by decide) (by decide) (by decide)).2.2.2 (by decide),
    nodes_override_isolation.2.2
      [("k3s", ⟨ValMap.ofList [("cpu", Val.str "16")], ValMap.nil⟩)] "k3s"
      ⟨[], ⟨none, none, none⟩, [("k3s", ValMap.nil)]⟩ (Or.inr (by decide))⟩

theorem analyze_group_spec (capacity : NodeCapacity) (apps_list : List AppResources) :
    ((analyze_group capacity apps_list).usage.total_cpu_capacity = 0 →
      (analyze_group capacity apps_list).percentages.cpu_request = 0 ∧
      (analyze_group capacity apps_list).percentages.cpu_limit = 0) ∧
    ((analyze_group capacity apps_list).usage.total_cpu_capacity ≠ 0 →
      (analyze_group capacity apps_list).percentages.cpu_request =
        (analyze_group capacity apps_list).usage.cpu_request /
          (analyze_group capacity apps_list).usage.total_cpu_capacity * 100 ∧
      (analyze_group capacity apps_list).percentages.cpu_limit =
        (analyze_group capacity apps_list).usage.cpu_limit /
          (analyze_group capacity apps_list).usage.total_cpu_capacity * 100) ∧
    ((analyze_group capacity apps_list).usage.total_memory_capacity = 0 →
      (analyze_group capacity apps_list).percentages.memory_request = 0 ∧
      (analyze_group capacity apps_list).percentages.memory_limit = 0) ∧
    ((analyze_group capacity apps_list).usage.total_memory_capacity ≠ 0 →
      (analyze_group capacity apps_list).percentages.memory_request =
        (analyze_group capacity apps_list).usage.memory_request /
          (analyze_group capacity apps_list).usage.total_memory_capacity * 100 ∧
      (analyze_group capacity apps_list).percentages.memory_limit =
        (analyze_group capacity apps_list).usage.memory_limit /
          (analyze_group capacity apps_list).usage.total_memory_capacity * 100) :=
  ⟨fun h => ⟨if_neg (not_not_intro h), if_neg (not_not_intro h)⟩,
    fun h => ⟨if_pos h, if_pos h⟩,
    fun h => ⟨if_neg (not_not_intro h), if_neg (not_not_intro h)⟩,
    fun h => ⟨if_pos h, if_pos h⟩⟩

/-- C8: for every group the capacity analysis reports, a zero total
CPU (resp. memory) capacity yields utilization percentages of exactly
0 for that dimension, for both the request-based and the limit-based
percentage, and a non-zero capacity yields exactly
demand / capacity × 100. -/
theorem zero_capacity_percentages :
    ∀ (nodeSels : List (String × NodeSelCfg)) (profiles : List (String × Profile))
      (ac : AppsConfig) (res : List (String × GroupAnalysis)) (sel : String)
      (ga : GroupAnalysis),
      analyze_capacity nodeSels profiles ac = some res → (sel, ga) ∈ res →
      (ga.usage.total_cpu_capacity = 0 →
        ga.percentages.cpu_request = 0 ∧ ga.percentages.cpu_limit = 0) ∧
      (ga.usage.total_cpu_capacity ≠ 0 →
        ga.percentages.cpu_request = ga.usage.cpu_request / ga.usage.total_cpu_capacity * 100 ∧
        ga.percentages.cpu_limit = ga.usage.cpu_limit / ga.usage.total_cpu_capacity * 100) ∧
      (ga.usage.total_memory_capacity = 0 →
        ga.percentages.memory_request = 0 ∧ ga.percentages.memory_limit = 0) ∧
      (ga.usage.total_memory_capacity ≠ 0 →
        ga.percentages.memory_request =
          ga.usage.memory_request / ga.usage.total_memory_capacity * 100 ∧
        ga.percentages.memory_limit =
          ga.usage.memory_limit / ga.usage.total_memory_capacity * 100) := by
  intro nodeSels profiles ac res sel ga hres hmem
  unfold analyze_capacity at hres
  cases h1 : mapMOpt (fun p => get_app_resources profiles p.1 p.2 ac.cluster) ac.apps with
  | none => rw [h1] at hres; simp at hres
  | some appResList =>
      rw [h1] at hres
      simp only [Option.bind_eq_bind, Option.some_bind] at hres
      obtain ⟨s, hs, hfs⟩ := mapMOpt_mem _ _ res hres (sel, ga) hmem
      cases h2 : get_node_capacity nodeSels s ac with
      | none => rw [h2] at hfs; simp at hfs
      | some capacity =>
          rw [h2] at hfs
          simp only [Option.bind_eq_bind, Option.some_bind, Option.pure_def,
            Option.some.injEq, Prod.mk.injEq] at hfs
          obtain ⟨hsel, hga⟩ := hfs
          rw [← hga]
          exact analyze_group_spec _ _

/-- Witness for C8: a group whose node declares 0m CPU and 0 bytes of
memory gets all four percentages equal to 0 rather than an error. -/
theorem zero_capacity_percentages_witness :
    (⟨⟨⟨0, "0m"⟩, ⟨0, "0"⟩, "pi", 1, none⟩,
      [⟨"web", "default", "pi", 1,
        ⟨⟨100, "100m"⟩, ⟨500, "500m"⟩, ⟨134217728, "128Mi"⟩, ⟨536870912, "512Mi"⟩⟩⟩],
      ⟨100, 500, 134217728, 536870912, 0, 0⟩,
      ⟨0, 0, 0, 0⟩⟩ : GroupAnalysis).percentages.cpu_request = 0 ∧
    (⟨⟨⟨0, "0m"⟩, ⟨0, "0"⟩, "pi", 1, none⟩,
      [⟨"web", "default", "pi", 1,
        ⟨⟨100, "100m"⟩, ⟨500, "500m"⟩, ⟨134217728, "128Mi"⟩, ⟨536870912, "512Mi"⟩⟩⟩],
      ⟨100, 500, 134217728, 536870912, 0, 0⟩,
      ⟨0, 0, 0, 0⟩⟩ : GroupAnalysis).percentages.cpu_limit = 0 ∧
    (⟨⟨⟨0, "0m"⟩, ⟨0, "0"⟩, "pi", 1, none⟩,
      [⟨"web", "default", "pi", 1,
        ⟨⟨100, "100m"⟩, ⟨500, "500m"⟩, ⟨134217728, "128Mi"⟩, ⟨536870912, "512Mi"⟩⟩⟩],
      ⟨100, 500, 134217728, 536870912, 0, 0⟩,
      ⟨0, 0, 0, 0⟩⟩ : GroupAnalysis).percentages.memory_request = 0 ∧
    (⟨⟨⟨0, "0m"⟩, ⟨0, "0"⟩, "pi", 1, none⟩,
      [⟨"web", "default", "pi", 1,
        ⟨⟨100, "100m"⟩, ⟨500, "500m"⟩, ⟨134217728, "128Mi"⟩, ⟨536870912, "512Mi"⟩⟩⟩],
      ⟨100, 500, 134217728, 536870912, 0, 0⟩,
      ⟨0, 0, 0, 0⟩⟩ : GroupAnalysis).percentages.memory_limit = 0 := by
  have h := zero_capacity_percentages [] []
    ⟨[("web", ⟨"nginx", none, none, none, some "pi", none, [], none, ValMap.nil, none⟩)],
      ⟨none, none, none⟩,
      [("pi", ValMap.ofList [("cpu", Val.str "0m"), ("memory", Val.str "0")])]⟩
    [("pi", ⟨⟨⟨0, "0m"⟩, ⟨0, "0"⟩, "pi", 1, none⟩,
      [⟨"web", "default", "pi", 1,
        ⟨⟨100, "100m"⟩, ⟨500, "500m"⟩, ⟨134217728, "128Mi"⟩, ⟨536870912, "512Mi"⟩⟩⟩],
      ⟨100, 500, 134217728, 536870912, 0, 0⟩, ⟨0, 0, 0, 0⟩⟩)] "pi"
    ⟨⟨⟨0, "0m"⟩, ⟨0, "0"⟩, "pi", 1, none⟩,
      [⟨"web", "default", "pi", 1,
        ⟨⟨100, "100m"⟩, ⟨500, "500m"⟩, ⟨134217728, "128Mi"⟩, ⟨536870912, "512Mi"⟩⟩⟩],
      ⟨100, 500, 134217728, 536870912, 0, 0⟩, ⟨0, 0, 0, 0⟩⟩
    (by decide) (List.mem_singleton_self _)
  exact ⟨(h.1 (by decide)).1, (h.1 (by decide)).2,
    (h.2.2.1 (by decide)).1, (h.2.2.1 (by decide)).2⟩

/-- C1: for the configuration whose only app `web` uses a profile with
requests 250m / 512Mi and limits 500m / 1Gi on node group `pi` declared
with count 2, cpu 4 and mem 8Gi, the analysis reports demand 500m CPU
and 1024Mi memory against 8000m / 16Gi of capacity, request
percentages of exactly 6.25 for both dimensions, and the status
`available`; in general every reported group's demand is the per-app
sum multiplied by max 1 (node count), and its capacity the per-node
capacity multiplied by the same factor. -/
theorem capacity_aggregation :
    analyze_capacity [] [("webprof", ⟨"250m", "500m", "512Mi", "1Gi"⟩)]
      ⟨[("web", ⟨"nginx", none, none, some "webprof", some "pi", none, [], none,
          ValMap.nil, none⟩)],
        ⟨none, none, none⟩,
        [("pi", ValMap.ofList [("count", Val.int 2), ("cpu", Val.int 4),
          ("mem", Val.str "8Gi")])]⟩ =
      some [("pi", ⟨⟨⟨4000, "4"⟩, ⟨8589934592, "8Gi"⟩, "pi", 2, none⟩,
        [⟨"web", "default", "pi", 1,
          ⟨⟨250, "250m"⟩, ⟨500, "500m"⟩, ⟨536870912, "512Mi"⟩, ⟨1073741824, "1Gi"⟩⟩⟩],
        ⟨500, 1000, 1073741824, 2147483648, 8000, 17179869184⟩,
        ⟨25/4, 25/2, 25/4, 25/2⟩⟩)] ∧
    capacity_status ⟨25/4, 25/2, 25/4, 25/2⟩ = "available" ∧
    (∀ (nodeSels : List (String × NodeSelCfg)) (profiles : List (String × Profile))
        (ac : AppsConfig) (res : List (String × GroupAnalysis)) (sel : String)
        (ga : GroupAnalysis),
      analyze_capacity nodeSels profiles ac = some res → (sel, ga) ∈ res →
      ga.usage.cpu_request = (ga.apps.map (fun a => a.resources.cpu_request.value)).sum *
        ((max 1 ga.capacity.count : Int) : ℚ) ∧
      ga.usage.cpu_limit = (ga.apps.map (fun a => a.resources.cpu_limit.value)).sum *
        ((max 1 ga.capacity.count : Int) : ℚ) ∧
      ga.usage.memory_request = (ga.apps.map (fun a => a.resources.memory_request.value)).sum *
        ((max 1 ga.capacity.count : Int) : ℚ) ∧
      ga.usage.memory_limit = (ga.apps.map (fun a => a.resources.memory_limit.value)).sum *
        ((max 1 ga.capacity.count : Int) : ℚ) ∧
      ga.usage.total_cpu_capacity = ga.capacity.cpu.value *
        ((max 1 ga.capacity.count : Int) : ℚ) ∧
      ga.usage.total_memory_capacity = ga.capacity.memory.value *
        ((max 1 ga.capacity.count : Int) : ℚ)) := by
  refine ⟨by decide, by decide, ?_⟩
  intro nodeSels profiles ac res sel ga hres hmem
  unfold analyze_capacity at hres
  cases h1 : mapMOpt (fun p => get_app_resources profiles p.1 p.2 ac.cluster) ac.apps with
  | none => rw [h1] at hres; simp at hres
  | some appResList =>
      rw [h1] at hres
      simp only [Option.bind_eq_bind, Option.some_bind] at hres
      obtain ⟨s, hs, hfs⟩ := mapMOpt_mem _ _ res hres (sel, ga) hmem
      cases h2 : get_node_capacity nodeSels s ac with
      | none => rw [h2] at hfs; simp at hfs
      | some capacity =>
          rw [h2] at hfs
          simp only [Option.bind_eq_bind, Option.some_bind, Option.pure_def,
            Option.some.injEq, Prod.mk.injEq] at hfs
          obtain ⟨hsel, hga⟩ := hfs
          rw [← hga]
          exact ⟨rfl, rfl, rfl, rfl, rfl, rfl⟩

/-- Witness for C1: the general aggregation equations instantiated at
the reported `pi` group of the concrete scenario. -/
theorem capacity_aggregation_witness :
    (⟨⟨⟨4000, "4"⟩, ⟨8589934592, "8Gi"⟩, "pi", 2, none⟩,
      [⟨"web", "default", "pi", 1,
        ⟨⟨250, "250m"⟩, ⟨500, "500m"⟩, ⟨536870912, "512Mi"⟩, ⟨1073741824, "1Gi"⟩⟩⟩],
      ⟨500, 1000, 1073741824, 2147483648, 8000, 17179869184⟩,
      ⟨25/4, 25/2, 25/4, 25/2⟩⟩ : GroupAnalysis).usage.cpu_request =
        ((⟨⟨⟨4000, "4"⟩, ⟨8589934592, "8Gi"⟩, "pi", 2, none⟩,
      [⟨"web", "default", "pi", 1,
        ⟨⟨250, "250m"⟩, ⟨500, "500m"⟩, ⟨536870912, "512Mi"⟩, ⟨1073741824, "1Gi"⟩⟩⟩],
      ⟨500, 1000, 1073741824, 2147483648, 8000, 17179869184⟩,
      ⟨25/4, 25/2, 25/4, 25/2⟩⟩ : GroupAnalysis).apps.map
          (fun a => a.resources.cpu_request.value)).sum *
        ((max 1 (⟨⟨⟨4000, "4"⟩, ⟨8589934592, "8Gi"⟩, "pi", 2, none⟩,
      [⟨"web", "default", "pi", 1,
        ⟨⟨250, "250m"⟩, ⟨500, "500m"⟩, ⟨536870912, "512Mi"⟩, ⟨1073741824, "1Gi"⟩⟩⟩],
      ⟨500, 1000, 1073741824, 2147483648, 8000, 17179869184⟩,
      ⟨25/4, 25/2, 25/4, 25/2⟩⟩ : GroupAnalysis).capacity.count : Int) : ℚ) :=
  (capacity_aggregation.2.2 [] [("webprof", ⟨"250m", "500m", "512Mi", "1Gi"⟩)]
    ⟨[("web", ⟨"nginx", none, none, some "webprof", some "pi", none, [], none,
        ValMap.nil, none⟩)],
      ⟨none, none, none⟩,
      [("pi", ValMap.ofList [("count", Val.int 2), ("cpu", Val.int 4),
        ("mem", Val.str "8Gi")])]⟩
    [("pi", ⟨⟨⟨4000, "4"⟩, ⟨8589934592, "8Gi"⟩, "pi", 2, none⟩,
      [⟨"web", "default", "pi", 1,
        ⟨⟨250, "250m"⟩, ⟨500, "500m"⟩, ⟨536870912, "512Mi"⟩, ⟨1073741824, "1Gi"⟩⟩⟩],
      ⟨500, 1000, 1073741824, 2147483648, 8000, 17179869184⟩,
      ⟨25/4, 25/2, 25/4, 25/2⟩⟩)] "pi"
    ⟨⟨⟨4000, "4"⟩, ⟨8589934592, "8Gi"⟩, "pi", 2, none⟩,
      [⟨"web", "default", "pi", 1,
        ⟨⟨250, "250m"⟩, ⟨500, "500m"⟩, ⟨536870912, "512Mi"⟩, ⟨1073741824, "1Gi"⟩⟩⟩],
      ⟨500, 1000, 1073741824, 2147483648, 8000, 17179869184⟩,
      ⟨25/4, 25/2, 25/4, 25/2⟩⟩
    (by decide) (List.mem_singleton_self _)).1

theorem valmap_nil_beq : (ValMap.nil == ValMap.nil) = true := rfl

theorem set_cons_ne_nil (k : String) (v : Val) (rest : ValMap) (key : String) (val : Val) :
    ValMap.set (.cons k v rest) key val ≠ .nil := by
  rw [ValMap.set_cons]
  by_cases h : k = key
  · rw [if_pos h]
    exact fun he => ValMap.noConfusion he
  · rw [if_neg h]
    exact fun he => ValMap.noConfusion he

theorem translate_network_ne_nil (nt : List (String × NetworkTypeCfg)) (t : String)
    (ps : List PortCfg) : translate_network nt t ps ≠ ValMap.nil := by
  simp only [translate_network]
  split
  · exact fun he => ValMap.noConfusion he
  · exact set_cons_ne_nil _ _ _ _ _

theorem translate_network_keys_nodup (nt : List (String × NetworkTypeCfg)) (t : String)
    (ps : List PortCfg) : (translate_network nt t ps).keys.Nodup := by
  simp only [translate_network]
  split
  · show (["service"] : List String).Nodup
    simp
  · show (["service", "defaultPodOptions"] : List String).Nodup
    decide

theorem translate_network_find?_spec (nt : List (String × NetworkTypeCfg)) (t : String)
    (ps : List PortCfg) :
    (translate_network nt t ps).find? "persistence" = none ∧
    (translate_network nt t ps).find? "ingress" = none ∧
    (translate_network nt t ps).find? "service" ≠ none := by
  simp only [translate_network]
  split
  · exact ⟨rfl, rfl, fun h => Option.noConfusion h⟩
  · exact ⟨rfl, rfl, fun h => Option.noConfusion h⟩

theorem translate_resources_none (profiles : List (String × Profile)) :
    translate_resources profiles none = ValMap.nil := rfl

theorem translate_node_selector_none (ns : List (String × NodeSelCfg)) :
    translate_node_selector ns none = ValMap.nil := rfl

/-- Counterexample for C4: an app that declares no network (and no
ports), translated against an empty platform, still gains a `service`
key: the network facet is never a no-op. -/
theorem facet_noop_counterexample :
    (translate_app ⟨[], [], ⟨none, ValMap.nil⟩, []⟩ "app"
        ⟨"nginx", none, none, none, none, none, [], none, ValMap.nil, none⟩
        ⟨none, none, none⟩).find? "service" ≠ none ∧
    translate_network [] "clusterip" [] ≠ ValMap.nil := by
  refine ⟨by decide, by decide⟩

/-- C4 (amended): of the five facets of `translate_app`, the resource
profile, node-selector, storage and ingress facets are no-ops when
their configuration is absent — the result is the base tree merged
with the network facet alone, and holds no `persistence` or `ingress`
key — but the network facet always fires (defaulting to `clusterip`
and a default HTTP port), so the result always holds a `service` key,
contrary to the claim. -/
theorem facet_noop_amended (platform : PlatformConfig) (app_name : String)
    (app_config : AppCfg) (cluster_config : ClusterCfg)
    (hprof : app_config.profile = none) (hcprof : cluster_config.defaultProfile = none)
    (hnsel : app_config.nodeSelector = none)
    (hcnsel : cluster_config.defaultNodeSelector = none)
    (hstor : app_config.storage = none) (hdom : cluster_config.domain = none)
    (hnet : app_config.network = none) :
    translate_app platform app_name app_config cluster_config =
      deep_merge (translate_base app_name app_config)
        (translate_network platform.networkTypes "clusterip" app_config.ports) ∧
    (translate_app platform app_name app_config cluster_config).find? "persistence" = none ∧
    (translate_app platform app_name app_config cluster_config).find? "ingress" = none ∧
    (translate_app platform app_name app_config cluster_config).find? "service" ≠ none := by
  have hn : (translate_network platform.networkTypes "clusterip" app_config.ports ==
      ValMap.nil) = false :=
    beq_eq_false_iff_ne.mpr (translate_network_ne_nil _ _ _)
  have heq : translate_app platform app_name app_config cluster_config =
      deep_merge (translate_base app_name app_config)
        (translate_network platform.networkTypes "clusterip" app_config.ports) := by
    unfold translate_app translate_facets
    rw [hprof, hcprof, hnsel, hcnsel, hstor, hdom, hnet]
    simp only [Option.none_orElse, Option.getD_none, translate_resources_none,
      translate_node_selector_none, List.foldl_cons, List.foldl_nil, valmap_nil_beq,
      if_true, hn, Bool.false_eq_true, if_false]
  refine ⟨heq, ?_, ?_, ?_⟩
  · rw [heq, find?_deep_merge _ _ (translate_network_keys_nodup _ _ _) "persistence",
      (translate_network_find?_spec platform.networkTypes "clusterip" app_config.ports).1]
    rfl
  · rw [heq, find?_deep_merge _ _ (translate_network_keys_nodup _ _ _) "ingress",
      (translate_network_find?_spec platform.networkTypes "clusterip" app_config.ports).2.1]
    rfl
  · rw [heq, find?_deep_merge _ _ (translate_network_keys_nodup _ _ _) "service"]
    cases hs : (translate_network platform.networkTypes "clusterip" app_config.ports).find?
        "service" with
    | none =>
        exact absurd hs
          (translate_network_find?_spec platform.networkTypes "clusterip" app_config.ports).2.2
    | some v =>
        have hb : (translate_base app_name app_config).find? "service" = none := rfl
        rw [hb]
        cases v <;> exact fun h => Option.noConfusion h

/-- Witness for the amended C4 at a concrete bare app and empty
platform. -/
theorem facet_noop_witness :
    translate_app ⟨[], [], ⟨none, ValMap.nil⟩, []⟩ "web"
        ⟨"nginx", none, none, none, none, none, [], none, ValMap.nil, none⟩
        ⟨none, none, none⟩ =
      deep_merge
        (translate_base "web"
          ⟨"nginx", none, none, none, none, none, [], none, ValMap.nil, none⟩)
        (translate_network [] "clusterip" []) ∧
    (translate_app ⟨[], [], ⟨none, ValMap.nil⟩, []⟩ "web"
        ⟨"nginx", none, none, none, none, none, [], none, ValMap.nil, none⟩
        ⟨none, none, none⟩).find? "persistence" = none ∧
    (translate_app ⟨[], [], ⟨none, ValMap.nil⟩, []⟩ "web"
        ⟨"nginx", none, none, none, none, none, [], none, ValMap.nil, none⟩
        ⟨none, none, none⟩).find? "ingress" = none ∧
    (translate_app ⟨[], [], ⟨none, ValMap.nil⟩, []⟩ "web"
        ⟨"nginx", none, none, none, none, none, [], none, ValMap.nil, none⟩
        ⟨none, none, none⟩).find? "service" ≠ none :=
  facet_noop_amended ⟨[], [], ⟨none, ValMap.nil⟩, []⟩ "web"
    ⟨"nginx", none, none, none, none, none, [], none, ValMap.nil, none⟩ ⟨none, none, none⟩
    rfl rfl rfl rfl rfl rfl rfl

end Maniforge
